import Mathlib

/-!
# ts: a fiber based task system

A development over the sources of the task system (`src/ts/task_system.cpp`,
`include/ts/task_system.h`): the wait list of suspended fibers, the two controller loops
(`main_thread_func`, `worker_thread_func`), the worker fiber entry, the submission function
`run`, the suspend function `wait_for` and the descriptor check.

Conventions of the embedding.
* Pointers (`void*` fiber handles, `const std::atomic_size_t*`) are natural numbers, the null
  pointer is `0`.
* The values of the atomic counters are read through a snapshot `mem : Nat → Nat` from
  addresses to values.
* `size_t` values are natural numbers; arithmetic that can leave the range is reduced modulo
  `size_t_modulus`.
* A failed `assert`, a read outside a vector, the dereference of a null pointer and a call that
  would block for ever are all the result `none`.
* One iteration of a `while (exec_flag)` loop is one function; what the fiber that was switched
  into did before control came back is an argument of that function.
-/

namespace ts

/-- The number of values of `size_t` on the 64 bit targets of the project. -/
def size_t_modulus : Nat := 2 ^ 64

/-! ## concurrent_queue -/

/-- Modelled from the spec: `ts::concurrent_queue<T>` lives in `ts/concurrent_queue.h`, which is
not among the sources (only its unit test is). The spec describes it as a bounded FIFO designed
as "a ring buffer of capacity N": a vector of slots, the index of the oldest item, the number of
stored items, and the wait-allowed flag. -/
structure concurrent_queue (α : Type) where
  buffer_ : List (Option α)
  head_ : Nat
  size_ : Nat
  wait_allowed_ : Bool

/-- The append operations the unit test mixes: `push`, `emplace` and `push(begin, end)`. -/
inductive append_op (α : Type) where
  | push (v : α)
  | emplace (v : α)
  | push_range (vs : List α)

/-- The two removing operations of the queue. -/
inductive pop_op where
  | try_pop
  | wait_pop
deriving DecidableEq, Repr

/-- The values one append operation hands to the queue, in order. -/
def append_op.values {α : Type} : append_op α → List α
  | .push v => [v]
  | .emplace v => [v]
  | .push_range vs => vs

/-- The values a sequence of append operations hands to the queue, in order. -/
def appended {α : Type} : List (append_op α) → List α
  | [] => []
  | op :: ops => op.values ++ appended ops

namespace concurrent_queue

variable {α : Type}

/-- Modelled from the spec: the constructor `concurrent_queue(capacity)`; the unit test `ctors`
expects an empty queue of size 0 with waiting allowed. -/
def create (capacity : Nat) : concurrent_queue α :=
  { buffer_ := List.replicate capacity none, head_ := 0, size_ := 0, wait_allowed_ := true }

/-- The fixed capacity N of the ring. -/
def capacity (q : concurrent_queue α) : Nat := q.buffer_.length

/-- Modelled from the spec: `size()`. -/
def size (q : concurrent_queue α) : Nat := q.size_

/-- Modelled from the spec: `empty()`. -/
def empty (q : concurrent_queue α) : Bool := q.size_ == 0

/-- Modelled from the spec: `wait_allowed()`. -/
def wait_allowed (q : concurrent_queue α) : Bool := q.wait_allowed_

/-- Modelled from the spec: `set_wait_allowed(bool)`. -/
def set_wait_allowed (b : Bool) (q : concurrent_queue α) : concurrent_queue α :=
  { q with wait_allowed_ := b }

/-- Modelled from the spec: `push(value)` appends behind the newest item. On a full queue the
caller blocks; that is the result `none`. -/
def push (v : α) (q : concurrent_queue α) : Option (concurrent_queue α) :=
  if q.size_ < q.capacity then
    some { q with buffer_ := q.buffer_.set ((q.head_ + q.size_) % q.capacity) (some v),
                  size_ := q.size_ + 1 }
  else none

/-- Modelled from the spec: `emplace(args...)` builds the value in place and appends it. -/
def emplace (v : α) (q : concurrent_queue α) : Option (concurrent_queue α) := q.push v

/-- Modelled from the spec: `push(iter_begin, iter_end)`, the bulk append of a range under one
critical section. -/
def push_range : List α → concurrent_queue α → Option (concurrent_queue α)
  | [], q => some q
  | v :: vs, q => (q.push v).bind (push_range vs)

/-- Modelled from the spec: `try_pop(&out)` returns false at once on an empty queue (the first
component is `none`), else hands out the oldest item. -/
def try_pop (q : concurrent_queue α) : Option α × concurrent_queue α :=
  if q.size_ = 0 then (none, q)
  else
    match q.buffer_[q.head_]? with
    | some (some v) =>
      (some v, { q with head_ := (q.head_ + 1) % q.capacity, size_ := q.size_ - 1 })
    | _ => (none, q)

/-- Modelled from the spec: `wait_pop(&out)` blocks on an empty queue while waiting is allowed
(the result `none`), returns false on an empty queue once waiting is not allowed, and else hands
out the oldest item. -/
def wait_pop (q : concurrent_queue α) : Option (Option α × concurrent_queue α) :=
  if q.size_ = 0 then (if q.wait_allowed_ then none else some (none, q))
  else some q.try_pop

/-- The content of the slot `i` places behind the oldest item. -/
def slot (q : concurrent_queue α) (i : Nat) : Option α :=
  (q.buffer_[(q.head_ + i) % q.capacity]?).join

/-- The stored items, oldest first. -/
def items (q : concurrent_queue α) : List α :=
  (List.range q.size_).filterMap q.slot

/-- The representation invariant of the ring: the stored items fit, the read index is inside
the ring, and every slot of the occupied window holds an item. -/
def valid (q : concurrent_queue α) : Prop :=
  q.size_ ≤ q.capacity ∧ (0 < q.capacity → q.head_ < q.capacity) ∧ q.items.length = q.size_

/-- One append operation of the unit test. -/
def apply_append (q : concurrent_queue α) : append_op α → Option (concurrent_queue α)
  | .push v => q.push v
  | .emplace v => q.emplace v
  | .push_range vs => q.push_range vs

/-- A sequence of append operations on one thread. -/
def apply_appends : List (append_op α) → concurrent_queue α → Option (concurrent_queue α)
  | [], q => some q
  | op :: ops, q => (q.apply_append op).bind (apply_appends ops)

/-- One removing operation: the value handed out, if the call returned true. -/
def apply_pop (q : concurrent_queue α) : pop_op → Option (Option α × concurrent_queue α)
  | .try_pop => some q.try_pop
  | .wait_pop => q.wait_pop

/-- Successive removing operations on one thread; every call is recorded with the value it
handed out and with `size()` read right after it. -/
def apply_pops : List pop_op → concurrent_queue α →
    Option (List (Option α × Nat) × concurrent_queue α)
  | [], q => some ([], q)
  | k :: ks, q =>
    match q.apply_pop k with
    | none => none
    | some (out, q1) =>
      match apply_pops ks q1 with
      | none => none
      | some (rest, q2) => some ((out, q1.size) :: rest, q2)

end concurrent_queue

/-! ## Descriptor, report, tasks and the submission function -/

/-- The struct `task_desc`: the `std::function<void()>` is named by a number. -/
structure task_desc where
  func : Nat
deriving DecidableEq, Repr

/-- The struct `task_system_desc`. -/
structure task_system_desc where
  thread_count : Nat := 0
  fiber_count : Nat := 0
  fiber_stack_byte_count : Nat := 0
  queue_size : Nat := 0
  queue_immediate_size : Nat := 0
deriving DecidableEq, Repr

/-- The struct `task_system_report`. -/
structure task_system_report where
  task_immediate_count : Nat := 0
  task_count : Nat := 0
deriving DecidableEq, Repr

/-- The function `is_valid_task_system_desc`. -/
def is_valid_task_system_desc (desc : task_system_desc) : Bool :=
  decide (desc.thread_count > 0)
    && decide (desc.fiber_count > 0)
    && decide (desc.queue_size > 0)
    && decide (desc.queue_immediate_size > 0)

/-- Modelled from the spec: the queue element `task` of `ts/task_system_internal.h` (not among
the sources): "an invocable with no arguments returning nothing, plus an optional pointer to a
wait-counter". `run` builds it with `emplace(std::move(func), p_wait_counter)`. -/
structure task where
  func : Nat
  p_wait_counter : Nat
deriving DecidableEq, Repr

/-- The struct `task_system_state`, with the members its constructor and `run` name. -/
structure task_system_state where
  queue : concurrent_queue task
  queue_immediate : concurrent_queue task
  exec_flag : Bool
  worker_thread_count : Nat
  report : task_system_report

/-- The constructor `task_system_state(queue_size, queue_immediate_size, worker_thread_count)`. -/
def task_system_state.create (queue_size queue_immediate_size worker_thread_count : Nat) :
    task_system_state :=
  { queue := concurrent_queue.create queue_size,
    queue_immediate := concurrent_queue.create queue_immediate_size,
    exec_flag := true,
    worker_thread_count := worker_thread_count,
    report := {} }

/-- The loop `for (size_t i = 0; i < count; ++i) queue.emplace(std::move(p_tasks[i].func),
p_wait_counter)` of `run`, from index `i` with `remaining` rounds to go. -/
def emplace_tasks (p_tasks : List task_desc) (p_wait_counter : Nat) :
    Nat → Nat → concurrent_queue task → Option (concurrent_queue task)
  | _, 0, q => some q
  | i, remaining + 1, q =>
    match p_tasks[i]? with
    | none => none
    | some td =>
      (q.emplace ⟨td.func, p_wait_counter⟩).bind
        (emplace_tasks p_tasks p_wait_counter (i + 1) remaining)

/-- The function `run(p_tasks, count, p_wait_counter)` of `task_system.cpp`. The first argument
is the global `gp_task_system`; `p_tasks` is the array behind the (non-null) pointer. -/
def run (gp_task_system : Option task_system_state) (mem : Nat → Nat)
    (p_tasks : List task_desc) (count : Nat) (p_wait_counter : Nat) :
    Option (task_system_state × (Nat → Nat)) :=
  match gp_task_system with
  | none => none
  | some st =>
    if count = 0 then none
    else
      let mem1 := if p_wait_counter ≠ 0 then Function.update mem p_wait_counter count else mem
      match emplace_tasks p_tasks p_wait_counter 0 count st.queue with
      | none => none
      | some q =>
        some ({ st with
                queue := q,
                report := { st.report with
                            task_count := (st.report.task_count + count) % size_t_modulus } },
              mem1)

/-- What happens to the task system between two looks at its report: a call of `run`, or a
worker fiber taking a task off the regular queue. -/
inductive system_event where
  | submit (p_tasks : List task_desc) (count : Nat) (p_wait_counter : Nat)
  | worker_pop

/-- The number of tasks the submissions of an event sequence hand in. -/
def submitted : List system_event → Nat
  | [] => 0
  | .submit _ count _ :: evs => count + submitted evs
  | .worker_pop :: evs => submitted evs

/-- The task system driven through a sequence of events. -/
def play : List system_event → task_system_state × (Nat → Nat) →
    Option (task_system_state × (Nat → Nat))
  | [], sm => some sm
  | .submit p_tasks count p_wait_counter :: evs, (st, mem) =>
    (run (some st) mem p_tasks count p_wait_counter).bind (play evs)
  | .worker_pop :: evs, (st, mem) =>
    play evs ({ st with queue := st.queue.try_pop.2 }, mem)

/-! ## fiber_wait_list -/

/-- The struct `list_entry { p_fiber, p_wait_counter }` of the wait list. -/
structure list_entry where
  p_fiber : Nat
  p_wait_counter : Nat
deriving DecidableEq, Repr

/-- The class `fiber_wait_list`: the vector `wait_list_` and the index `push_index_`. -/
structure fiber_wait_list where
  wait_list_ : List list_entry
  push_index_ : Nat
deriving DecidableEq, Repr

/-- The entries the wait list holds: the slots `0 .. push_index_ - 1`. -/
def fiber_wait_list.stored (wl : fiber_wait_list) : List list_entry :=
  wl.wait_list_.take wl.push_index_

/-- The constructor `fiber_wait_list(fiber_count)`: `wait_list_.resize(fiber_count)`. -/
def fiber_wait_list.create (fiber_count : Nat) : fiber_wait_list :=
  { wait_list_ := List.replicate fiber_count ⟨0, 0⟩, push_index_ := 0 }

/-- The member `fiber_wait_list::push`, its four asserts included. -/
def fiber_wait_list.push (mem : Nat → Nat) (p_fiber p_wait_counter : Nat)
    (wl : fiber_wait_list) : Option fiber_wait_list :=
  if p_fiber = 0 then none
  else if p_wait_counter = 0 then none
  else if mem p_wait_counter = 0 then none
  else if wl.push_index_ < wl.wait_list_.length then
    some { wait_list_ := wl.wait_list_.set wl.push_index_ ⟨p_fiber, p_wait_counter⟩,
           push_index_ := wl.push_index_ + 1 }
  else none

/-- The call `std::swap(wait_list_[i], wait_list_[j])`. -/
def swap_entries (l : List list_entry) (i j : Nat) : Option (List list_entry) :=
  match l[i]?, l[j]? with
  | some a, some b => some ((l.set i b).set j a)
  | _, _ => none

/-- The loop `for (size_t i = push_index_; i > 0; --i)` of `try_pop`; the argument is `i`. The
result is the returned flag, the value of `p_out_fiber` and the list afterwards. -/
def try_pop_scan (mem : Nat → Nat) (wl : fiber_wait_list) (p_out_fiber : Nat) :
    Nat → Option (Bool × Nat × fiber_wait_list)
  | 0 => some (false, p_out_fiber, wl)
  | i + 1 =>
    match wl.wait_list_[i]? with
    | none => none
    | some e =>
      if e.p_wait_counter = 0 then none
      else if mem e.p_wait_counter > 0 then try_pop_scan mem wl p_out_fiber i
      else
        let cleared := wl.wait_list_.set i ⟨0, 0⟩
        if i + 1 ≠ wl.push_index_ then
          (swap_entries cleared i (wl.push_index_ - 1)).map
            fun swapped => (true, e.p_fiber, ⟨swapped, wl.push_index_ - 1⟩)
        else some (true, e.p_fiber, ⟨cleared, wl.push_index_ - 1⟩)

/-- The member `fiber_wait_list::try_pop(void*& p_out_fiber)`. -/
def fiber_wait_list.try_pop (mem : Nat → Nat) (p_out_fiber : Nat) (wl : fiber_wait_list) :
    Option (Bool × Nat × fiber_wait_list) :=
  if wl.push_index_ = 0 then some (false, p_out_fiber, wl)
  else try_pop_scan mem wl p_out_fiber wl.push_index_

/-- A wait list as `push` builds it: the index is inside the vector and every stored entry has a
counter to read. -/
def wl_wf (wl : fiber_wait_list) : Prop :=
  wl.push_index_ ≤ wl.wait_list_.length ∧ ∀ e ∈ wl.stored, e.p_wait_counter ≠ 0

/-! ## fiber_pool -/

/-- Modelled from the spec: the class `fiber_pool` of `ts/task_system_internal.h` (not among the
sources), "a bounded thread-safe container of idle fiber handles" with set semantics, where
"any order of issue is legal". -/
structure fiber_pool where
  fibers : List Nat
deriving DecidableEq, Repr

/-- Modelled from the spec: `fiber_pool::pop()` hands out one of the idle fibers; which one is
the choice `pick`. On an empty pool the caller blocks: the result `none`. -/
def fiber_pool.pop (pick : Nat) (p : fiber_pool) : Option (Nat × fiber_pool) :=
  match p.fibers[pick % p.fibers.length]? with
  | some f => some (f, ⟨p.fibers.eraseIdx (pick % p.fibers.length)⟩)
  | none => none

/-- Modelled from the spec: `fiber_pool::push_back(handle)` returns a handle to the pool. -/
def fiber_pool.push_back (p_fiber : Nat) (p : fiber_pool) : fiber_pool :=
  ⟨p.fibers ++ [p_fiber]⟩

/-! ## The controller loops -/

/-- The calls a controller makes that move a fiber into the pool or into the wait list. -/
inductive sched_call where
  | pool_push_back (p_fiber : Nat)
  | wait_list_push (p_fiber : Nat) (p_wait_counter : Nat)
deriving DecidableEq, Repr

/-- The state `main_thread_func` works on: the handle of the kernel fiber, its locals
`p_main_wait_counter` and `p_fiber_to_exec`, the pool and the wait list it was given, and the
record of the calls made so far. -/
structure main_thread_state where
  kernel_fiber : Nat
  p_main_wait_counter : Nat
  p_fiber_to_exec : Nat
  pool : fiber_pool
  wait_list : fiber_wait_list
  calls : List sched_call
deriving DecidableEq, Repr

/-- The state `worker_thread_func` works on. -/
structure worker_thread_state where
  p_fiber_to_exec : Nat
  pool : fiber_pool
  wait_list : fiber_wait_list
  calls : List sched_call
deriving DecidableEq, Repr

/-- What a controller finds when `switch_to_fiber(p_fiber_to_exec)` returns: the flag it had
read at the loop head, the value the fiber left in
`worker_fiber_context::p_wait_list_counter`, the counter values it reads during the iteration,
and the choice the pool makes if it is asked for a fiber. -/
structure fiber_yield where
  exec_flag : Bool
  pending : Nat
  mem : Nat → Nat
  pool_pick : Nat

/-- The locals of `main_thread_func` before its loop. -/
def main_thread_init (kernel_fiber : Nat) (pool : fiber_pool) (wait_list : fiber_wait_list) :
    main_thread_state :=
  { kernel_fiber := kernel_fiber,
    p_main_wait_counter := 0,
    p_fiber_to_exec := kernel_fiber,
    pool := pool,
    wait_list := wait_list,
    calls := [] }

/-- The body of the loop of `main_thread_func` after `switch_to_fiber` has returned. -/
def main_thread_iter (mem : Nat → Nat) (pool_pick : Nat) (pending : Nat)
    (s : main_thread_state) : Option main_thread_state :=
  if pending ≠ 0 then
    let parked : Option main_thread_state :=
      if s.p_main_wait_counter ≠ 0 then
        (s.wait_list.push mem s.p_fiber_to_exec pending).map fun wl =>
          { s with wait_list := wl,
                   calls := s.calls ++ [.wait_list_push s.p_fiber_to_exec pending] }
      else if s.p_fiber_to_exec = s.kernel_fiber then
        some { s with p_main_wait_counter := pending }
      else none
    parked.bind fun s1 =>
      (s1.pool.pop pool_pick).map fun (f, pool) =>
        { s1 with p_fiber_to_exec := f, pool := pool }
  else
    let picked : Option (Nat × main_thread_state) :=
      if s.p_main_wait_counter ≠ 0 ∧ mem s.p_main_wait_counter = 0 then
        some (s.kernel_fiber, { s with p_main_wait_counter := 0 })
      else
        (s.wait_list.try_pop mem 0).map fun (_, p_fbr, wl) => (p_fbr, { s with wait_list := wl })
    picked.map fun (p_fbr, s1) =>
      if p_fbr ≠ 0 then
        { s1 with pool := s1.pool.push_back s1.p_fiber_to_exec,
                  p_fiber_to_exec := p_fbr,
                  calls := s1.calls ++ [.pool_push_back s1.p_fiber_to_exec] }
      else s1

/-- The loop `while (exec_flag)` of `main_thread_func`, run over the yields it meets. -/
def main_thread_loop : List fiber_yield → main_thread_state → Option main_thread_state
  | [], s => some s
  | y :: ys, s =>
    if y.exec_flag then (main_thread_iter y.mem y.pool_pick y.pending s).bind (main_thread_loop ys)
    else some s

/-- The function `main_thread_func`: the locals are set up with the kernel fiber as the first
fiber to run, then the loop runs over the yields it meets. -/
def main_thread_func (kernel_fiber : Nat) (pool : fiber_pool) (wait_list : fiber_wait_list)
    (ys : List fiber_yield) : Option main_thread_state :=
  main_thread_loop ys (main_thread_init kernel_fiber pool wait_list)

/-- The locals of `worker_thread_func` before its loop: `p_fiber_to_exec = fiber_pool.pop()`. -/
def worker_thread_init (pool_pick : Nat) (pool : fiber_pool) (wait_list : fiber_wait_list) :
    Option worker_thread_state :=
  (pool.pop pool_pick).map fun (f, pool1) =>
    { p_fiber_to_exec := f, pool := pool1, wait_list := wait_list, calls := [] }

/-- The body of the loop of `worker_thread_func` after `switch_to_fiber` has returned;
`p_fpr` is the value the uninitialised local of that name happens to hold. -/
def worker_thread_iter (mem : Nat → Nat) (pool_pick : Nat) (pending : Nat) (p_fpr : Nat)
    (w : worker_thread_state) : Option worker_thread_state :=
  if pending ≠ 0 then
    (w.wait_list.push mem w.p_fiber_to_exec pending).bind fun wl =>
      (w.pool.pop pool_pick).map fun (f, pool) =>
        { w with wait_list := wl,
                 pool := pool,
                 p_fiber_to_exec := f,
                 calls := w.calls ++ [.wait_list_push w.p_fiber_to_exec pending] }
  else
    (w.wait_list.try_pop mem p_fpr).map fun (r, p_out, wl) =>
      if r then
        { w with wait_list := wl,
                 pool := w.pool.push_back w.p_fiber_to_exec,
                 p_fiber_to_exec := p_out,
                 calls := w.calls ++ [.pool_push_back w.p_fiber_to_exec] }
      else { w with wait_list := wl }

/-- The loop `while (exec_flag)` of `worker_thread_func`, run over the yields it meets, each
with the value the local `p_fpr` happens to hold. -/
def worker_thread_loop : List (fiber_yield × Nat) → worker_thread_state →
    Option worker_thread_state
  | [], w => some w
  | (y, p_fpr) :: ys, w =>
    if y.exec_flag then
      (worker_thread_iter y.mem y.pool_pick y.pending p_fpr w).bind (worker_thread_loop ys)
    else some w

/-- The function `worker_thread_func`: a first fiber is taken from the pool, then the loop runs
over the yields it meets. -/
def worker_thread_func (pool_pick : Nat) (pool : fiber_pool) (wait_list : fiber_wait_list)
    (ys : List (fiber_yield × Nat)) : Option worker_thread_state :=
  (worker_thread_init pool_pick pool wait_list).bind (worker_thread_loop ys)

/-- The worker fibers a state accounts for: the pooled fibers, the fibers parked in the wait
list, and the threads whose runnable fiber is a worker fiber (not the kernel fiber). -/
def accounted_fibers (kernel_fiber : Nat) (pool : fiber_pool) (wait_list : fiber_wait_list)
    (running : List Nat) : Nat :=
  pool.fibers.length + wait_list.push_index_ + (running.filter (· ≠ kernel_fiber)).length

/-- No parked fiber is also the runnable fiber or in the pool, no fiber is parked twice, and the
runnable fiber is not in the pool. -/
def parked_apart (p_fiber_to_exec : Nat) (pool : fiber_pool) (wl : fiber_wait_list) : Prop :=
  wl_wf wl ∧ (wl.stored.map list_entry.p_fiber).Nodup ∧
    (∀ e ∈ wl.stored, e.p_fiber ≠ p_fiber_to_exec ∧ e.p_fiber ∉ pool.fibers) ∧
    p_fiber_to_exec ∉ pool.fibers

/-- While the kernel fiber waits on its counter it is neither runnable, pooled nor parked. -/
def kernel_apart (s : main_thread_state) : Prop :=
  s.p_main_wait_counter ≠ 0 →
    s.p_fiber_to_exec ≠ s.kernel_fiber ∧ s.kernel_fiber ∉ s.pool.fibers ∧
      ∀ e ∈ s.wait_list.stored, e.p_fiber ≠ s.kernel_fiber

/-! ## Fibers: the suspend function and the worker fiber entry -/

/-- The thread local `worker_fiber_context` together with the fiber the thread is running and
the record of its fiber switches: each switch with its target and with the value
`p_wait_list_counter` has at that moment. -/
structure fiber_context where
  p_controller_fiber : Nat
  p_wait_list_counter : Nat
  current_fiber : Nat
  switches : List (Nat × Nat)
deriving DecidableEq, Repr

/-- Modelled from the spec: the primitive `switch_to_fiber(handle)` of the fiber header (not
among the sources), which "suspends the current fiber and resumes `handle`". -/
def switch_to_fiber (p_fiber : Nat) (ctx : fiber_context) : fiber_context :=
  { ctx with current_fiber := p_fiber,
             switches := ctx.switches ++ [(p_fiber, ctx.p_wait_list_counter)] }

/-- The function `wait_for(const std::atomic_size_t& wait_counter)`; `wait_counter` is the
address of the counter and `gp_task_system_set` tells whether the global pointer is set. -/
def wait_for (gp_task_system_set : Bool) (mem : Nat → Nat) (wait_counter : Nat)
    (ctx : fiber_context) : Option fiber_context :=
  if !gp_task_system_set then none
  else if ctx.current_fiber = ctx.p_controller_fiber then none
  else if mem wait_counter = 0 then some ctx
  else some (switch_to_fiber ctx.p_controller_fiber { ctx with p_wait_list_counter := wait_counter })

/-- The counters while the kernel function and task A are waiting: the kernel counter at
address 100 and the counter of task A at address 200 both read 1. -/
def mem_waiting : Nat → Nat := fun a => if a = 100 then 1 else if a = 200 then 1 else 0

/-- The counters after task D has run: both counters read 0. -/
def mem_released : Nat → Nat := fun _ => 0

/-- What the controller of the launching thread meets in a run with one thread and two worker
fibers, where the kernel function submits a task A without a counter and a task D with the
counter at 100, waits for that counter, and on its return clears the exec flag and ends. Task A
sets the counter at 200 to 1 and waits for it; task D sets that counter to 0.
1. the kernel fiber yields through `wait_for` on the counter at 100;
2. the first worker fiber, running A, yields through `wait_for` on the counter at 200;
3. the second worker fiber has run D and yields without a pending counter;
4. the kernel fiber has finished the kernel function and yields without a pending counter;
5. the loop head reads the exec flag as false. -/
def kernel_exit_yields : List fiber_yield :=
  [ ⟨true, 100, mem_waiting, 0⟩,
    ⟨true, 200, mem_waiting, 0⟩,
    ⟨true, 0, mem_released, 0⟩,
    ⟨true, 0, mem_released, 0⟩,
    ⟨false, 0, mem_released, 0⟩ ]

/-- A state of the launching thread: the kernel fiber 1 waits on the counter at 100, fiber 12
is runnable, fiber 13 is pooled and fiber 11 is parked on the counter at 200. -/
def main_sample : main_thread_state :=
  ⟨1, 100, 12, ⟨[13]⟩, ⟨[⟨11, 200⟩, ⟨0, 0⟩, ⟨0, 0⟩], 1⟩, []⟩

/-- A state of a worker thread: fiber 21 is runnable, fiber 22 is pooled and fiber 11 is parked
on the counter at 200. -/
def worker_sample : worker_thread_state :=
  ⟨21, ⟨[22]⟩, ⟨[⟨11, 200⟩, ⟨0, 0⟩, ⟨0, 0⟩], 1⟩, []⟩

/-- Counter values: the counter at 200 reads 0, every other counter reads 1. -/
def mem_sample : Nat → Nat := fun a => if a = 200 then 0 else 1

/-- The fibers a state of the launching thread knows of, place by place: the pooled fibers, the
parked fibers, the runnable fiber, and the kernel fiber while it waits on its counter. -/
def main_thread_state.fibers (s : main_thread_state) : List Nat :=
  s.pool.fibers ++ (s.wait_list.stored.map list_entry.p_fiber ++
    (s.p_fiber_to_exec :: (if s.p_main_wait_counter ≠ 0 then [s.kernel_fiber] else [])))

/-- The fibers a state of a worker thread knows of: pooled, parked and runnable. -/
def worker_thread_state.fibers (w : worker_thread_state) : List Nat :=
  w.pool.fibers ++ (w.wait_list.stored.map list_entry.p_fiber ++ [w.p_fiber_to_exec])

/-- A well-formed wait list whose stored entries all name a fiber, as `push` asserts. -/
def wl_parked (wl : fiber_wait_list) : Prop :=
  wl_wf wl ∧ ∀ e ∈ wl.stored, e.p_fiber ≠ 0

/-- The kernel fiber is in its own place: it is the runnable fiber of the launching thread
exactly while no kernel wait counter is set. -/
def kernel_placed (s : main_thread_state) : Prop :=
  s.p_main_wait_counter = 0 ↔ s.p_fiber_to_exec = s.kernel_fiber

/-- The whole scheduler at the grain of loop iterations: the state of the launching thread, which
carries the shared pool and wait list, and the runnable fiber of every worker thread. -/
structure system_state where
  main : main_thread_state
  workers : List Nat
deriving DecidableEq, Repr

/-- One loop iteration of one thread: of the launching thread, or of the worker thread with
index `i` (with the value its local `p_fpr` happens to hold). -/
inductive thread_step where
  | main (y : fiber_yield)
  | worker (i : Nat) (y : fiber_yield) (p_fpr : Nat)

/-- The view the worker thread with runnable fiber `p_fiber_to_exec` has of the system. -/
def system_state.worker_view (g : system_state) (p_fiber_to_exec : Nat) : worker_thread_state :=
  ⟨p_fiber_to_exec, g.main.pool, g.main.wait_list, g.main.calls⟩

/-- One loop iteration of one thread on the shared pool and wait list. -/
def system_step : thread_step → system_state → Option system_state
  | .main y, g =>
    (main_thread_iter y.mem y.pool_pick y.pending g.main).map fun m => { g with main := m }
  | .worker i y p_fpr, g =>
    match g.workers[i]? with
    | none => none
    | some cur =>
      (worker_thread_iter y.mem y.pool_pick y.pending p_fpr (g.worker_view cur)).map fun w =>
        { main := { g.main with pool := w.pool, wait_list := w.wait_list, calls := w.calls },
          workers := g.workers.set i w.p_fiber_to_exec }

/-- Any interleaving of loop iterations of the threads. -/
def system_run : List thread_step → system_state → Option system_state
  | [], g => some g
  | st :: sts, g => (system_step st g).bind (system_run sts)

/-- The fibers of the whole system, place by place. -/
def system_state.fibers (g : system_state) : List Nat :=
  g.main.fibers ++ g.workers

/-! ## Lemmas on the wait list -/

/-- Overwriting a position of a list and keeping the old element aside is a rearrangement
of the list with the new element in front. -/
theorem set_perm_cons {β : Type} (x : β) :
    ∀ (M : List β) (j : Nat) (e : β), M[j]? = some e →
      (e :: M.set j x).Perm (x :: M)
  | [], j, e, h => by simp at h
  | a :: M, 0, e, h => by
    simp at h
    subst h
    simpa using List.Perm.swap x a M
  | a :: M, j + 1, e, h => by
    simp at h
    have ih := set_perm_cons x M j e h
    simp only [List.set_cons_succ]
    exact (List.Perm.swap a e _).trans ((ih.cons a).trans (List.Perm.swap x a M))

/-- Removing the last stored entry: the entries before it stay as they are. -/
theorem remove_last_perm (L : List list_entry) (j : Nat) (e z : list_entry)
    (hj : L[j]? = some e) :
    (L.take (j + 1)).Perm (e :: (L.set j z).take j) := by
  have hlt : j < L.length := by
    rcases List.getElem?_eq_some.mp hj with ⟨h, _⟩
    exact h
  have he : L[j] = e := by
    rcases List.getElem?_eq_some.mp hj with ⟨_, h⟩
    exact h
  rw [← List.take_concat_get L j hlt, he]
  have : (L.set j z).take j = L.take j := by
    apply List.ext_getElem?
    intro k
    simp only [List.getElem?_take]
    split
    · rw [List.getElem?_set_ne (by omega)]
    · rfl
  rw [this]
  simp

/-- Removing a stored entry that is not the last one: after the swap with the last slot the
entries in front of the new index are the old ones without the removed entry. -/
theorem remove_inner_perm (L : List list_entry) (j n : Nat) (e z : list_entry)
    (hj : L[j]? = some e) (hjn : j + 1 < n) (hn : n ≤ L.length) :
    ∃ sw, swap_entries (L.set j z) j (n - 1) = some sw ∧
      (L.take n).Perm (e :: sw.take (n - 1)) := by
  have hlast : n - 1 < L.length := by omega
  have hjl : j < L.length := by omega
  refine ⟨((L.set j z).set j (L[n - 1])).set (n - 1) z, ?_, ?_⟩
  · unfold swap_entries
    have h1 : (L.set j z)[j]? = some z := by
      simp [List.getElem?_set, hjl]
    have h2 : (L.set j z)[n - 1]? = some (L[n - 1]) := by
      rw [List.getElem?_set_ne (by omega)]
      exact List.getElem?_eq_getElem hlast
    rw [h1, h2]
  · have hn1 : n = (n - 1) + 1 := by omega
    have htake : (((L.set j z).set j (L[n - 1])).set (n - 1) z).take (n - 1)
        = (L.take (n - 1)).set j (L[n - 1]) := by
      apply List.ext_getElem?
      intro k
      simp only [List.set_set, List.getElem?_take, List.getElem?_set, List.length_set,
        List.length_take]
      by_cases hk : k < n - 1
      · by_cases hkj : j = k
        · subst hkj
          simp [hk, hjl]
          omega
        · simp [hk, hkj]
          intro h
          omega
      · simp only [hk, if_false]
        rw [if_neg (by omega)]
    rw [htake]
    have hM : (L.take (n - 1))[j]? = some e := by
      rw [List.getElem?_take_of_lt (by omega)]
      exact hj
    have h3 := set_perm_cons (L[n - 1]) (L.take (n - 1)) j e hM
    have h4 : L.take n = L.take (n - 1) ++ [L[n - 1]] := by
      rw [List.take_concat_get' L (n - 1) hlast]
      congr 1
    rw [h4]
    exact (List.perm_append_singleton _ _).trans h3.symm

/-- A slot in front of `push_index_` holds a stored entry. -/
theorem mem_stored_of_getElem? (wl : fiber_wait_list) (j : Nat) (e : list_entry)
    (hj : wl.wait_list_[j]? = some e) (hlt : j < wl.push_index_) : e ∈ wl.stored := by
  unfold fiber_wait_list.stored
  rw [List.mem_iff_getElem?]
  exact ⟨j, by rw [List.getElem?_take_of_lt hlt]; exact hj⟩

/-- The scan of `try_pop` from index `i` downwards on a well-formed wait list: either no
entry in front of `i` is ready and nothing changes, or a ready stored entry is taken out. -/
theorem try_pop_scan_spec (mem : Nat → Nat) (wl : fiber_wait_list) (out : Nat)
    (hwf : wl_wf wl) : ∀ i, i ≤ wl.push_index_ →
    (try_pop_scan mem wl out i = some (false, out, wl) ∧
        ∀ k, k < i → ∀ e, wl.wait_list_[k]? = some e → mem e.p_wait_counter ≠ 0) ∨
    (∃ e wl', e ∈ wl.stored ∧ mem e.p_wait_counter = 0 ∧
        try_pop_scan mem wl out i = some (true, e.p_fiber, wl') ∧
        wl'.push_index_ + 1 = wl.push_index_ ∧
        wl'.wait_list_.length = wl.wait_list_.length ∧
        wl.stored.Perm (e :: wl'.stored)) := by
  intro i
  induction i with
  | zero =>
    intro _
    left
    exact ⟨rfl, fun k hk => absurd hk (Nat.not_lt_zero k)⟩
  | succ i ih =>
    intro hi
    have hil : i < wl.wait_list_.length := by have := hwf.1; omega
    have hget : wl.wait_list_[i]? = some (wl.wait_list_[i]) := List.getElem?_eq_getElem hil
    have hmem : wl.wait_list_[i] ∈ wl.stored := mem_stored_of_getElem? wl i _ hget (by omega)
    have hnz : (wl.wait_list_[i]).p_wait_counter ≠ 0 := hwf.2 _ hmem
    unfold try_pop_scan
    rw [hget]
    simp only [hnz, if_false]
    by_cases hpos : mem (wl.wait_list_[i]).p_wait_counter > 0
    · simp only [hpos, if_true]
      rcases ih (by omega) with ⟨h1, h2⟩ | h
      · left
        refine ⟨h1, ?_⟩
        intro k hk e he
        by_cases hki : k = i
        · subst hki
          rw [hget] at he
          cases he
          omega
        · exact h2 k (by omega) e he
      · right
        exact h
    · right
      have hz : mem (wl.wait_list_[i]).p_wait_counter = 0 := by omega
      simp only [hpos, if_false]
      by_cases hlast : i + 1 = wl.push_index_
      · refine ⟨wl.wait_list_[i], ⟨wl.wait_list_.set i ⟨0, 0⟩, wl.push_index_ - 1⟩,
          hmem, hz, ?_, ?_, ?_, ?_⟩
        · simp [hlast]
        · simp only; omega
        · simp
        · have := remove_last_perm wl.wait_list_ i _ ⟨0, 0⟩ hget
          unfold fiber_wait_list.stored
          simp only
          rw [← hlast]
          simpa using this
      · obtain ⟨sw, hsw, hperm⟩ := remove_inner_perm wl.wait_list_ i wl.push_index_ _ ⟨0, 0⟩
          hget (by omega) hwf.1
        refine ⟨wl.wait_list_[i], ⟨sw, wl.push_index_ - 1⟩, hmem, hz, ?_, ?_, ?_, ?_⟩
        · simp [hlast, hsw]
        · simp only; omega
        · unfold swap_entries at hsw
          split at hsw
          · cases hsw
            simp
          · cases hsw
        · exact hperm

/-- What `try_pop` does on a well-formed wait list, for any snapshot of the counters. -/
theorem try_pop_spec (mem : Nat → Nat) (wl : fiber_wait_list) (p_out_fiber : Nat)
    (hwf : wl_wf wl) :
    (wl.try_pop mem p_out_fiber = some (false, p_out_fiber, wl) ∧
        ∀ e ∈ wl.stored, mem e.p_wait_counter ≠ 0) ∨
    (∃ e wl', e ∈ wl.stored ∧ mem e.p_wait_counter = 0 ∧
        wl.try_pop mem p_out_fiber = some (true, e.p_fiber, wl') ∧
        wl'.push_index_ + 1 = wl.push_index_ ∧
        wl'.wait_list_.length = wl.wait_list_.length ∧
        wl.stored.Perm (e :: wl'.stored)) := by
  unfold fiber_wait_list.try_pop
  by_cases h0 : wl.push_index_ = 0
  · left
    refine ⟨by simp [h0], ?_⟩
    simp [fiber_wait_list.stored, h0]
  · simp only [h0, if_false]
    rcases try_pop_scan_spec mem wl p_out_fiber hwf wl.push_index_ (le_refl _) with
      ⟨h1, h2⟩ | h
    · left
      refine ⟨h1, ?_⟩
      intro e he
      unfold fiber_wait_list.stored at he
      rw [List.mem_iff_getElem?] at he
      obtain ⟨k, hk⟩ := he
      rw [List.getElem?_take] at hk
      split at hk
      · exact h2 k (by assumption) e hk
      · cases hk
    · right
      exact h

/-- A successful `push` stores the new entry behind the stored ones. -/
theorem push_stored (mem : Nat → Nat) (p_fiber p_wait_counter : Nat) (wl wl' : fiber_wait_list)
    (h : wl.push mem p_fiber p_wait_counter = some wl') :
    wl'.stored = wl.stored ++ [⟨p_fiber, p_wait_counter⟩] := by
  unfold fiber_wait_list.push at h
  split at h
  · cases h
  · split at h
    · cases h
    · split at h
      · cases h
      · split at h
        · rename_i hlt
          simp only [Option.some.injEq] at h
          subst h
          unfold fiber_wait_list.stored
          simp only
          rw [← List.take_concat_get' _ wl.push_index_ (by simpa using hlt)]
          congr 1
          · apply List.ext_getElem?
            intro k
            simp only [List.getElem?_take]
            split
            · rw [List.getElem?_set_ne (by omega)]
            · rfl
          · simp
        · cases h

/-- Two stored entries with the same fiber are the same entry when no fiber is parked twice. -/
theorem stored_entry_unique (wl : fiber_wait_list)
    (hnd : (wl.stored.map list_entry.p_fiber).Nodup) (e e0 : list_entry)
    (he : e ∈ wl.stored) (he0 : e0 ∈ wl.stored) (hf : e.p_fiber = e0.p_fiber) : e = e0 :=
  List.inj_on_of_nodup_map hnd he he0 hf

/-- A successful `push` keeps the wait list well-formed. -/
theorem push_parked (mem : Nat → Nat) (p_fiber p_wait_counter : Nat) (wl wl' : fiber_wait_list)
    (hwf : wl_parked wl) (h : wl.push mem p_fiber p_wait_counter = some wl') : wl_parked wl' := by
  have hst := push_stored mem p_fiber p_wait_counter wl wl' h
  unfold fiber_wait_list.push at h
  split at h
  · cases h
  · rename_i hf
    split at h
    · cases h
    · rename_i hc
      split at h
      · cases h
      · split at h
        · rename_i hlt
          refine ⟨⟨?_, ?_⟩, ?_⟩
          · simp only [Option.some.injEq] at h
            subst h
            simp only [List.length_set]
            omega
          · intro e he
            rw [hst, List.mem_append, List.mem_singleton] at he
            rcases he with he | rfl
            · exact hwf.1.2 e he
            · exact hc
          · intro e he
            rw [hst, List.mem_append, List.mem_singleton] at he
            rcases he with he | rfl
            · exact hwf.2 e he
            · exact hf
        · cases h

/-- Taking an entry out with `try_pop` keeps the wait list well-formed. -/
theorem try_pop_parked (wl wl' : fiber_wait_list) (e : list_entry) (hwf : wl_parked wl)
    (hidx : wl'.push_index_ + 1 = wl.push_index_)
    (hlen : wl'.wait_list_.length = wl.wait_list_.length)
    (hperm : wl.stored.Perm (e :: wl'.stored)) : wl_parked wl' := by
  have hsub : ∀ x ∈ wl'.stored, x ∈ wl.stored := fun x hx =>
    hperm.symm.subset (List.mem_cons_of_mem e hx)
  refine ⟨⟨?_, fun x hx => hwf.1.2 x (hsub x hx)⟩, fun x hx => hwf.2 x (hsub x hx)⟩
  have := hwf.1.1
  omega

/-- On a well-formed wait list the number of stored entries is `push_index_`. -/
theorem stored_length (wl : fiber_wait_list) (hwf : wl_wf wl) :
    wl.stored.length = wl.push_index_ := by
  unfold fiber_wait_list.stored
  rw [List.length_take]
  exact Nat.min_eq_left hwf.1

/-! ## Lemmas on the queue -/

/-- Two slots of the occupied window of a ring that is not full are different slots. -/
theorem ring_slot_ne (h i n c : Nat) (hi : i < n) (hn : n < c) :
    (h + i) % c ≠ (h + n) % c := by
  intro heq
  have h1 : (h + i) ≡ (h + n) [MOD c] := heq
  have h2 : i ≡ n [MOD c] := Nat.ModEq.add_left_cancel' h h1
  have h3 : i % c = n % c := h2
  rw [Nat.mod_eq_of_lt (by omega), Nat.mod_eq_of_lt hn] at h3
  omega

namespace concurrent_queue

variable {α : Type}

/-- A `push` on a queue with room appends the value behind the stored items. -/
theorem items_push (v : α) (q : concurrent_queue α) (hv : q.valid) (hroom : q.size_ < q.capacity) :
    ∃ q', q.push v = some q' ∧ q'.items = q.items ++ [v] ∧ q'.valid ∧
      q'.size_ = q.size_ + 1 ∧ q'.capacity = q.capacity ∧ q'.wait_allowed_ = q.wait_allowed_ := by
  obtain ⟨h1, h2, h3⟩ := hv
  have hcap : 0 < q.capacity := by omega
  have hslot : (q.head_ + q.size_) % q.capacity < q.buffer_.length := Nat.mod_lt _ hcap
  have hitems : items ⟨q.buffer_.set ((q.head_ + q.size_) % q.capacity) (some v), q.head_,
      q.size_ + 1, q.wait_allowed_⟩ = q.items ++ [v] := by
    unfold items
    simp only
    rw [List.range_succ, List.filterMap_append]
    congr 1
    · apply List.filterMap_congr
      intro i hi
      rw [List.mem_range] at hi
      unfold slot
      simp only [capacity, List.length_set]
      rw [List.getElem?_set_ne]
      exact (ring_slot_ne q.head_ i q.size_ _ hi hroom).symm
    · have hs : slot ⟨q.buffer_.set ((q.head_ + q.size_) % q.capacity) (some v), q.head_,
          q.size_ + 1, q.wait_allowed_⟩ q.size_ = some v := by
        unfold slot
        simp only [capacity, List.length_set]
        have hslot' : (q.head_ + q.size_) % q.buffer_.length < q.buffer_.length := hslot
        rw [List.getElem?_set_self hslot']
        rfl
      rw [List.filterMap_cons_some hs, List.filterMap_nil]
  refine ⟨⟨q.buffer_.set ((q.head_ + q.size_) % q.capacity) (some v), q.head_,
      q.size_ + 1, q.wait_allowed_⟩, by simp [push, hroom], hitems, ?_, rfl, by simp [capacity], rfl⟩
  refine ⟨?_, ?_, ?_⟩
  · simp only [capacity, List.length_set]
    exact hroom
  · simp only [capacity, List.length_set]
    exact h2
  · rw [hitems]
    simp [h3]

/-- A `try_pop` on a non-empty queue hands out the oldest item and keeps the rest. -/
theorem items_pop (q : concurrent_queue α) (hv : q.valid) (hne : q.size_ ≠ 0) :
    ∃ v q', q.try_pop = (some v, q') ∧ q.items = v :: q'.items ∧ q'.valid ∧
      q'.size_ + 1 = q.size_ ∧ q'.capacity = q.capacity ∧
      q'.wait_allowed_ = q.wait_allowed_ := by
  obtain ⟨h1, h2, h3⟩ := hv
  have hcap : 0 < q.capacity := by omega
  have hhead : q.head_ < q.capacity := h2 hcap
  obtain ⟨n, hn⟩ : ∃ n, q.size_ = n + 1 := ⟨q.size_ - 1, by omega⟩
  have hlen : ((List.range q.size_).filterMap q.slot).length = (List.range q.size_).length := by
    rw [List.length_range]
    exact h3
  have hfull := List.filterMap_length_eq_length.mp hlen
  have h0 := hfull 0 (List.mem_range.mpr (by omega))
  unfold slot at h0
  rw [Nat.add_zero, Nat.mod_eq_of_lt hhead] at h0
  obtain ⟨v, hv0⟩ : ∃ v, q.buffer_[q.head_]? = some (some v) := by
    cases hb : q.buffer_[q.head_]? with
    | none => rw [hb] at h0; cases h0
    | some o =>
      cases o with
      | none => rw [hb] at h0; cases h0
      | some v => exact ⟨v, rfl⟩
  have hf0 : q.slot 0 = some v := by
    unfold slot
    rw [Nat.add_zero, Nat.mod_eq_of_lt hhead, hv0]
    rfl
  have hitems : q.items = v :: items ⟨q.buffer_, (q.head_ + 1) % q.capacity, q.size_ - 1,
      q.wait_allowed_⟩ := by
    unfold items
    simp only [hn, Nat.add_sub_cancel]
    rw [List.range_succ_eq_map, List.filterMap_cons_some hf0, List.filterMap_map]
    congr 1
    apply List.filterMap_congr
    intro i _
    unfold slot
    simp only [Function.comp, capacity]
    congr 2
    rw [Nat.add_mod ((q.head_ + 1) % q.buffer_.length), Nat.mod_mod, ← Nat.add_mod]
    congr 1
    omega
  refine ⟨v, ⟨q.buffer_, (q.head_ + 1) % q.capacity, q.size_ - 1, q.wait_allowed_⟩,
    by simp [try_pop, hne, hv0], hitems, ?_, by simp only; omega, rfl, rfl⟩
  refine ⟨by simp only [capacity]; simp only [capacity] at h1; omega,
    fun _ => Nat.mod_lt _ hcap, ?_⟩
  have := h3
  rw [hitems] at this
  simp only [List.length_cons] at this
  simp only
  omega

/-- A freshly built queue satisfies the representation invariant. -/
theorem valid_create (capacity : Nat) : (create capacity : concurrent_queue α).valid := by
  simp [valid, create, items, concurrent_queue.capacity]


/-- A bulk push on a queue with room appends the range in order. -/
theorem items_push_range (vs : List α) : ∀ (q : concurrent_queue α), q.valid →
    q.size_ + vs.length ≤ q.capacity →
    ∃ q', push_range vs q = some q' ∧ q'.items = q.items ++ vs ∧ q'.valid ∧
      q'.size_ = q.size_ + vs.length ∧ q'.capacity = q.capacity ∧
      q'.wait_allowed_ = q.wait_allowed_ := by
  induction vs with
  | nil =>
    intro q hv _
    exact ⟨q, rfl, by simp, hv, rfl, rfl, rfl⟩
  | cons v vs ih =>
    intro q hv hroom
    simp only [List.length_cons] at hroom
    obtain ⟨q1, hp, hi, hv1, hs, hc, hw⟩ := items_push v q hv (by omega)
    obtain ⟨q2, hp2, hi2, hv2, hs2, hc2, hw2⟩ := ih q1 hv1 (by rw [hs, hc]; omega)
    refine ⟨q2, by simp [push_range, hp, hp2], ?_, hv2, ?_, hc2.trans hc, hw2.trans hw⟩
    · rw [hi2, hi]
      simp
    · rw [hs2, hs, List.length_cons]
      omega

/-- A sequence of append operations on a queue with room appends all values in order. -/
theorem items_apply_appends (ops : List (append_op α)) : ∀ (q : concurrent_queue α), q.valid →
    q.size_ + (appended ops).length ≤ q.capacity →
    ∃ q', apply_appends ops q = some q' ∧ q'.items = q.items ++ appended ops ∧ q'.valid ∧
      q'.size_ = q.size_ + (appended ops).length ∧ q'.capacity = q.capacity ∧
      q'.wait_allowed_ = q.wait_allowed_ := by
  induction ops with
  | nil =>
    intro q hv _
    exact ⟨q, rfl, by simp [appended], hv, rfl, rfl, rfl⟩
  | cons op ops ih =>
    intro q hv hroom
    simp only [appended, List.length_append] at hroom
    have h1 : ∃ q1, q.apply_append op = some q1 ∧ q1.items = q.items ++ op.values ∧ q1.valid ∧
        q1.size_ = q.size_ + op.values.length ∧ q1.capacity = q.capacity ∧
        q1.wait_allowed_ = q.wait_allowed_ := by
      cases op with
      | push v =>
        simp only [append_op.values, List.length_singleton] at hroom ⊢
        exact items_push v q hv (by omega)
      | emplace v =>
        simp only [append_op.values, List.length_singleton] at hroom ⊢
        exact items_push v q hv (by omega)
      | push_range vs =>
        simp only [append_op.values] at hroom ⊢
        exact items_push_range vs q hv (by omega)
    obtain ⟨q1, hp, hi, hv1, hs, hc, hw⟩ := h1
    obtain ⟨q2, hp2, hi2, hv2, hs2, hc2, hw2⟩ := ih q1 hv1 (by rw [hs, hc]; omega)
    refine ⟨q2, by simp [apply_appends, hp, hp2], ?_, hv2, ?_, hc2.trans hc, hw2.trans hw⟩
    · rw [hi2, hi]
      simp [appended]
    · rw [hs2, hs]
      simp only [appended, List.length_append]
      omega

/-- As many removing operations as the queue holds items hand the items out oldest
first, each returning true, with the size going down to zero. -/
theorem items_apply_pops (ks : List pop_op) : ∀ (q : concurrent_queue α), q.valid →
    ks.length = q.size_ →
    ∃ res q', apply_pops ks q = some (res, q') ∧ res.map Prod.fst = q.items.map some ∧
      res.map Prod.snd = (List.range q.size_).reverse ∧ q'.size_ = 0 := by
  induction ks with
  | nil =>
    intro q hv hlen
    simp only [List.length_nil] at hlen
    refine ⟨[], q, rfl, ?_, ?_, hlen.symm⟩
    · have := hv.2.2
      rw [← hlen] at this
      simp [List.length_eq_zero.mp this]
    · simp [← hlen]
  | cons k ks ih =>
    intro q hv hlen
    simp only [List.length_cons] at hlen
    obtain ⟨v, q1, hp, hi, hv1, hs, _, _⟩ := items_pop q hv (by omega)
    have hk : q.apply_pop k = some (some v, q1) := by
      cases k with
      | try_pop => simp [apply_pop, hp]
      | wait_pop =>
        have : q.size_ ≠ 0 := by omega
        simp [apply_pop, wait_pop, this, hp]
    obtain ⟨res, q2, hr, hf, hsn, hz⟩ := ih q1 hv1 (by omega)
    refine ⟨(some v, q1.size) :: res, q2, by simp [apply_pops, hk, hr], ?_, ?_, hz⟩
    · simp [hi, hf]
    · rw [← hs, List.range_succ, List.reverse_append]
      simp [hsn, size]

end concurrent_queue

/-- The emplace loop of `run` on a queue with room: it appends the tasks `i .. i + remaining - 1`
of the array in order, each with the counter reference. -/
theorem emplace_tasks_spec (p_tasks : List task_desc) (p_wait_counter : Nat) :
    ∀ (remaining i : Nat) (q : concurrent_queue task), q.valid →
      i + remaining ≤ p_tasks.length → q.size_ + remaining ≤ q.capacity →
      ∃ q', emplace_tasks p_tasks p_wait_counter i remaining q = some q' ∧
        q'.items = q.items ++
          ((p_tasks.drop i).take remaining).map (fun td => ⟨td.func, p_wait_counter⟩) ∧
        q'.valid ∧ q'.size_ = q.size_ + remaining ∧ q'.capacity = q.capacity := by
  intro remaining
  induction remaining with
  | zero =>
    intro i q hv _ _
    exact ⟨q, rfl, by simp, hv, rfl, rfl⟩
  | succ n ih =>
    intro i q hv harr hroom
    have hi : i < p_tasks.length := by omega
    obtain ⟨q1, hp, hitems, hv1, hs, hc, _⟩ :=
      concurrent_queue.items_push ⟨(p_tasks[i]).func, p_wait_counter⟩ q hv (by omega)
    obtain ⟨q2, hp2, hitems2, hv2, hs2, hc2⟩ := ih (i + 1) q1 hv1 (by omega) (by rw [hs, hc]; omega)
    refine ⟨q2, ?_, ?_, hv2, by rw [hs2, hs]; omega, hc2.trans hc⟩
    · simp only [emplace_tasks, List.getElem?_eq_getElem hi, concurrent_queue.emplace, hp,
        Option.some_bind, hp2]
    · rw [hitems2, hitems, List.drop_eq_getElem_cons hi, List.take_succ_cons, List.map_cons,
        List.append_assoc, List.singleton_append]

/-- The report after a sequence of events: the immediate count is untouched and the task count
has grown by the number of submitted tasks, within `size_t`. -/
theorem play_report : ∀ (evs : List system_event) (st : task_system_state) (mem : Nat → Nat)
    (st1 : task_system_state) (mem1 : Nat → Nat),
    play evs (st, mem) = some (st1, mem1) → st.report.task_count < size_t_modulus →
    st1.report.task_immediate_count = st.report.task_immediate_count ∧
    st1.report.task_count = (st.report.task_count + submitted evs) % size_t_modulus := by
  intro evs
  induction evs with
  | nil =>
    intro st mem st1 mem1 h hlt
    simp only [play, Option.some.injEq, Prod.mk.injEq] at h
    obtain ⟨rfl, _⟩ := h
    simp [submitted, Nat.mod_eq_of_lt hlt]
  | cons ev evs ih =>
    intro st mem st1 mem1 h hlt
    cases ev with
    | worker_pop =>
      simp only [play] at h
      have := ih _ _ _ _ h hlt
      simpa [submitted] using this
    | submit p_tasks count p_wait_counter =>
      simp only [play] at h
      cases hrun : run (some st) mem p_tasks count p_wait_counter with
      | none => rw [hrun] at h; cases h
      | some r =>
        obtain ⟨st2, mem2⟩ := r
        rw [hrun] at h
        simp only [Option.some_bind] at h
        have hrep : st2.report.task_immediate_count = st.report.task_immediate_count ∧
            st2.report.task_count = (st.report.task_count + count) % size_t_modulus := by
          unfold run at hrun
          simp only at hrun
          split at hrun
          · cases hrun
          · split at hrun
            · cases hrun
            · simp only [Option.some.injEq, Prod.mk.injEq] at hrun
              obtain ⟨rfl, _⟩ := hrun
              exact ⟨rfl, rfl⟩
        have hlt2 : st2.report.task_count < size_t_modulus := by
          rw [hrep.2]
          exact Nat.mod_lt _ (by decide)
        obtain ⟨h1, h2⟩ := ih _ _ _ _ h hlt2
        refine ⟨h1.trans hrep.1, ?_⟩
        rw [h2, hrep.2, submitted, Nat.mod_add_mod, Nat.add_assoc]

/-! ## Lemmas on the pool and on the places of the fibers -/

/-- The fiber the pool hands out was in the pool. -/
theorem pool_pop_mem (pick : Nat) (p p' : fiber_pool) (f : Nat)
    (h : p.pop pick = some (f, p')) : f ∈ p.fibers := by
  unfold fiber_pool.pop at h
  split at h
  · rename_i g hg
    simp only [Option.some.injEq, Prod.mk.injEq] at h
    obtain ⟨rfl, _⟩ := h
    exact List.getElem?_mem hg
  · cases h

/-- Taking the element at a position out of a list. -/
theorem perm_cons_eraseIdx {β : Type} : ∀ (l : List β) (i : Nat) (x : β), l[i]? = some x →
    l.Perm (x :: l.eraseIdx i)
  | [], i, x, h => by simp at h
  | a :: l, 0, x, h => by
    simp at h
    subst h
    simp
  | a :: l, i + 1, x, h => by
    simp at h
    have ih := perm_cons_eraseIdx l i x h
    simp only [List.eraseIdx_cons_succ]
    exact (ih.cons a).trans (List.Perm.swap x a _)

/-- The pool after `pop` is the pool before it without the fiber handed out. -/
theorem pool_pop_perm (pick : Nat) (p p' : fiber_pool) (f : Nat)
    (h : p.pop pick = some (f, p')) : p.fibers.Perm (f :: p'.fibers) := by
  unfold fiber_pool.pop at h
  split at h
  · rename_i g hg
    simp only [Option.some.injEq, Prod.mk.injEq] at h
    obtain ⟨rfl, rfl⟩ := h
    exact perm_cons_eraseIdx _ _ _ hg
  · cases h

/-- An iteration of `worker_thread_func` only moves fibers between the pool, the wait list and
the runnable place. -/
theorem worker_thread_iter_fibers (mem : Nat → Nat) (pick pending p_fpr : Nat)
    (w w1 : worker_thread_state) (hwf : wl_parked w.wait_list)
    (h : worker_thread_iter mem pick pending p_fpr w = some w1) :
    w1.fibers.Perm w.fibers ∧ wl_parked w1.wait_list := by
  unfold worker_thread_iter at h
  by_cases hp : pending = 0
  · simp only [hp, ne_eq, not_true_eq_false, if_false] at h
    rcases try_pop_spec mem w.wait_list p_fpr hwf.1 with
      ⟨h1, _⟩ | ⟨e0, wl', hmem, _, hres, hidx, hlen, hperm⟩
    · simp only [h1, Option.map_some', Bool.false_eq_true, if_false, Option.some.injEq] at h
      subst h
      exact ⟨List.Perm.refl _, hwf⟩
    · simp only [hres, Option.map_some', if_true, Option.some.injEq] at h
      subst h
      refine ⟨?_, try_pop_parked _ _ e0 hwf hidx hlen hperm⟩
      have hp2 := hperm.map list_entry.p_fiber
      simp only [worker_thread_state.fibers, fiber_pool.push_back]
      rw [← Multiset.coe_eq_coe] at hp2 ⊢
      simp only [List.map_cons, ← Multiset.coe_add, ← Multiset.cons_coe,
        ← Multiset.singleton_add, Multiset.coe_nil, add_zero] at hp2 ⊢
      rw [hp2]
      ac_rfl
  · simp only [hp, ne_eq, not_false_eq_true, if_true] at h
    cases hpush : w.wait_list.push mem w.p_fiber_to_exec pending with
    | none => rw [hpush] at h; cases h
    | some wl' =>
      rw [hpush] at h
      simp only [Option.some_bind] at h
      cases hpop : w.pool.pop pick with
      | none => rw [hpop] at h; cases h
      | some r =>
        obtain ⟨f, pool'⟩ := r
        rw [hpop] at h
        simp only [Option.map_some', Option.some.injEq] at h
        subst h
        have hst := push_stored mem _ _ _ _ hpush
        have hpp := pool_pop_perm pick w.pool pool' f hpop
        refine ⟨?_, push_parked mem _ _ _ _ hwf hpush⟩
        simp only [worker_thread_state.fibers, hst, List.map_append, List.map_cons,
          List.map_nil]
        rw [← Multiset.coe_eq_coe] at hpp ⊢
        simp only [← Multiset.coe_add, ← Multiset.cons_coe, ← Multiset.singleton_add,
          Multiset.coe_nil, add_zero] at hpp ⊢
        rw [hpp]
        ac_rfl

/-- An iteration of `main_thread_func` only moves fibers between the pool, the wait list, the
runnable place and the place of the waiting kernel fiber. -/
theorem main_thread_iter_fibers (mem : Nat → Nat) (pick pending : Nat)
    (s s1 : main_thread_state) (hkernel : s.kernel_fiber ≠ 0) (hwf : wl_parked s.wait_list)
    (h : main_thread_iter mem pick pending s = some s1) :
    s1.fibers.Perm s.fibers ∧ wl_parked s1.wait_list ∧ s1.kernel_fiber = s.kernel_fiber := by
  unfold main_thread_iter at h
  by_cases hp : pending = 0
  · simp only [hp, ne_eq, not_true_eq_false, if_false] at h
    by_cases hb : s.p_main_wait_counter ≠ 0 ∧ mem s.p_main_wait_counter = 0
    · simp only [hb, ne_eq, not_false_eq_true, and_self, if_true, Option.map_some',
        Option.some.injEq, hkernel] at h
      subst h
      refine ⟨?_, hwf, rfl⟩
      simp only [main_thread_state.fibers, fiber_pool.push_back, hb.1, ne_eq,
        not_true_eq_false, not_false_eq_true, if_true, if_false]
      rw [← Multiset.coe_eq_coe]
      simp only [← Multiset.coe_add, ← Multiset.cons_coe, ← Multiset.singleton_add,
        Multiset.coe_nil, add_zero]
      ac_rfl
    · simp only [hb, if_false] at h
      rcases try_pop_spec mem s.wait_list 0 hwf.1 with
        ⟨h1, _⟩ | ⟨e0, wl', hmem, _, hres, hidx, hlen, hperm⟩
      · simp only [h1, Option.map_some', ne_eq, not_true_eq_false, if_false,
          Option.some.injEq] at h
        subst h
        exact ⟨List.Perm.refl _, hwf, rfl⟩
      · have hne : e0.p_fiber ≠ 0 := hwf.2 e0 hmem
        simp only [hres, Option.map_some', ne_eq, hne, not_false_eq_true, if_true,
          Option.some.injEq] at h
        subst h
        refine ⟨?_, try_pop_parked _ _ e0 hwf hidx hlen hperm, rfl⟩
        have hp2 := hperm.map list_entry.p_fiber
        simp only [main_thread_state.fibers, fiber_pool.push_back]
        rw [← Multiset.coe_eq_coe] at hp2 ⊢
        simp only [List.map_cons, ← Multiset.coe_add, ← Multiset.cons_coe,
          ← Multiset.singleton_add, Multiset.coe_nil, add_zero] at hp2 ⊢
        rw [hp2]
        ac_rfl
  · simp only [hp, ne_eq, not_false_eq_true, if_true] at h
    by_cases hset : s.p_main_wait_counter = 0
    · simp only [hset, not_true_eq_false, if_false] at h
      by_cases hker : s.p_fiber_to_exec = s.kernel_fiber
      · simp only [hker, if_true, Option.some_bind] at h
        cases hpop : s.pool.pop pick with
        | none => rw [hpop] at h; cases h
        | some r =>
          obtain ⟨f, pool'⟩ := r
          rw [hpop] at h
          simp only [Option.map_some', Option.some.injEq] at h
          subst h
          have hpp := pool_pop_perm pick s.pool pool' f hpop
          refine ⟨?_, hwf, rfl⟩
          simp only [main_thread_state.fibers, hset, hp, hker, ne_eq, not_true_eq_false,
            not_false_eq_true, if_true, if_false]
          rw [← Multiset.coe_eq_coe] at hpp ⊢
          simp only [← Multiset.coe_add, ← Multiset.cons_coe, ← Multiset.singleton_add,
            Multiset.coe_nil, add_zero] at hpp ⊢
          rw [hpp]
          ac_rfl
      · simp [hker] at h
    · simp only [hset, not_false_eq_true, if_true] at h
      cases hpush : s.wait_list.push mem s.p_fiber_to_exec pending with
      | none => rw [hpush] at h; simp at h
      | some wl' =>
        rw [hpush] at h
        simp only [Option.map_some', Option.some_bind] at h
        cases hpop : s.pool.pop pick with
        | none => rw [hpop] at h; cases h
        | some r =>
          obtain ⟨f, pool'⟩ := r
          rw [hpop] at h
          simp only [Option.map_some', Option.some.injEq] at h
          subst h
          have hst := push_stored mem _ _ _ _ hpush
          have hpp := pool_pop_perm pick s.pool pool' f hpop
          refine ⟨?_, push_parked mem _ _ _ _ hwf hpush, rfl⟩
          simp only [main_thread_state.fibers, hst, List.map_append, List.map_cons,
            List.map_nil, hset, ne_eq, not_false_eq_true, if_true]
          rw [← Multiset.coe_eq_coe] at hpp ⊢
          simp only [← Multiset.coe_add, ← Multiset.cons_coe, ← Multiset.singleton_add,
            Multiset.coe_nil, add_zero] at hpp ⊢
          rw [hpp]
          ac_rfl

/-- Along the whole loop of `main_thread_func` the fibers are only moved between their places:
whatever the fibers do, the state reached holds the fibers of the first state. -/
theorem main_thread_loop_fibers : ∀ (ys : List fiber_yield) (s s1 : main_thread_state),
    s.kernel_fiber ≠ 0 → wl_parked s.wait_list → main_thread_loop ys s = some s1 →
    s1.fibers.Perm s.fibers ∧ wl_parked s1.wait_list ∧ s1.kernel_fiber = s.kernel_fiber
  | [], s, s1, _, hwf, h => by
    simp only [main_thread_loop, Option.some.injEq] at h
    subst h
    exact ⟨List.Perm.refl _, hwf, rfl⟩
  | y :: ys, s, s1, hkernel, hwf, h => by
    simp only [main_thread_loop] at h
    by_cases hy : y.exec_flag = true
    · simp only [hy, if_true] at h
      cases hit : main_thread_iter y.mem y.pool_pick y.pending s with
      | none => rw [hit] at h; cases h
      | some s2 =>
        rw [hit] at h
        simp only [Option.some_bind] at h
        obtain ⟨h1, h2, h3⟩ := main_thread_iter_fibers _ _ _ s s2 hkernel hwf hit
        obtain ⟨h4, h5, h6⟩ := main_thread_loop_fibers ys s2 s1 (h3 ▸ hkernel) h2 h
        exact ⟨h4.trans h1, h5, h6.trans h3⟩
    · simp only [hy, Bool.false_eq_true, if_false, Option.some.injEq] at h
      subst h
      exact ⟨List.Perm.refl _, hwf, rfl⟩

/-- A state of the launching thread in which no fiber is in two places is one in which the
parked fibers and a waiting kernel fiber are apart from everything else. -/
theorem main_apart_of_nodup (s : main_thread_state) (hwf : wl_wf s.wait_list)
    (hnd : s.fibers.Nodup) :
    parked_apart s.p_fiber_to_exec s.pool s.wait_list ∧ kernel_apart s := by
  unfold main_thread_state.fibers at hnd
  rw [List.nodup_append] at hnd
  obtain ⟨_, hrest, hdisj⟩ := hnd
  rw [List.nodup_append] at hrest
  obtain ⟨hpark, hrun, hdisj2⟩ := hrest
  refine ⟨⟨hwf, hpark, ?_, ?_⟩, ?_⟩
  · intro e he
    have hm : e.p_fiber ∈ s.wait_list.stored.map list_entry.p_fiber := List.mem_map_of_mem _ he
    refine ⟨?_, ?_⟩
    · intro heq
      exact hdisj2 hm (heq ▸ List.mem_cons_self _ _)
    · intro hin
      exact hdisj hin (List.mem_append_left _ hm)
  · intro hin
    exact hdisj hin (List.mem_append_right _ (List.mem_cons_self _ _))
  · intro hset
    simp only [hset, ne_eq, not_false_eq_true, if_true] at hrun hdisj hdisj2
    refine ⟨?_, ?_, ?_⟩
    · intro heq
      have := (List.nodup_cons.mp hrun).1
      exact this (heq ▸ List.mem_singleton_self _)
    · intro hin
      exact hdisj hin (List.mem_append_right _ (List.mem_cons_of_mem _ (List.mem_singleton_self _)))
    · intro e he heq
      have hm : e.p_fiber ∈ s.wait_list.stored.map list_entry.p_fiber := List.mem_map_of_mem _ he
      exact hdisj2 hm (heq ▸ List.mem_cons_of_mem _ (List.mem_singleton_self _))

/-- A state of a worker thread in which no fiber is in two places is one in which the parked
fibers are apart from the pool and the runnable fiber. -/
theorem worker_apart_of_nodup (w : worker_thread_state) (hwf : wl_wf w.wait_list)
    (hnd : w.fibers.Nodup) :
    parked_apart w.p_fiber_to_exec w.pool w.wait_list := by
  unfold worker_thread_state.fibers at hnd
  rw [List.nodup_append] at hnd
  obtain ⟨_, hrest, hdisj⟩ := hnd
  rw [List.nodup_append] at hrest
  obtain ⟨hpark, _, hdisj2⟩ := hrest
  refine ⟨hwf, hpark, ?_, ?_⟩
  · intro e he
    have hm : e.p_fiber ∈ w.wait_list.stored.map list_entry.p_fiber := List.mem_map_of_mem _ he
    refine ⟨?_, ?_⟩
    · intro heq
      exact hdisj2 hm (heq ▸ List.mem_singleton_self _)
    · intro hin
      exact hdisj hin (List.mem_append_left _ hm)
  · intro hin
    exact hdisj hin (List.mem_append_right _ (List.mem_singleton_self _))

/-- Every state the loop of `main_thread_func` reaches, from its start with a pool of distinct
worker fibers that does not hold the kernel fiber and with an empty wait list, keeps every fiber
in one place only: the parked fibers and a waiting kernel fiber are apart from everything else
in every state the loop reaches on its own. -/
theorem main_thread_loop_apart (ys : List fiber_yield) (kernel_fiber fiber_count : Nat)
    (pool : fiber_pool) (s1 : main_thread_state)
    (hkernel : kernel_fiber ≠ 0) (hpool : pool.fibers.Nodup) (hout : kernel_fiber ∉ pool.fibers)
    (h : main_thread_loop ys
      (main_thread_init kernel_fiber pool (fiber_wait_list.create fiber_count)) = some s1) :
    s1.fibers.Nodup ∧
      parked_apart s1.p_fiber_to_exec s1.pool s1.wait_list ∧ kernel_apart s1 := by
  have hwf0 : wl_parked (fiber_wait_list.create fiber_count) := by
    simp [wl_parked, wl_wf, fiber_wait_list.create, fiber_wait_list.stored]
  obtain ⟨hperm, hwf, _⟩ := main_thread_loop_fibers ys _ s1 hkernel hwf0 h
  have hnd0 : (main_thread_init kernel_fiber pool
      (fiber_wait_list.create fiber_count)).fibers.Nodup := by
    simp only [main_thread_state.fibers, main_thread_init, fiber_wait_list.create,
      fiber_wait_list.stored, List.take_zero, List.map_nil, List.nil_append, ne_eq,
      not_true_eq_false, if_false]
    rw [List.nodup_append]
    refine ⟨hpool, List.nodup_singleton _, ?_⟩
    intro a ha hb
    rw [List.mem_singleton] at hb
    exact hout (hb ▸ ha)
  have hnd : s1.fibers.Nodup := hperm.symm.nodup_iff.mp hnd0
  exact ⟨hnd, main_apart_of_nodup s1 hwf.1 hnd⟩

/-- With the kernel fiber in its own place, the worker fibers a state of the launching thread
accounts for are all its fibers but the kernel fiber. -/
theorem accounted_of_placed (s : main_thread_state) (hwf : wl_wf s.wait_list)
    (hpl : kernel_placed s) :
    accounted_fibers s.kernel_fiber s.pool s.wait_list [s.p_fiber_to_exec] + 1
      = s.fibers.length := by
  unfold accounted_fibers main_thread_state.fibers
  simp only [List.length_append, List.length_map, List.length_cons, stored_length _ hwf]
  by_cases hset : s.p_main_wait_counter = 0
  · have hcur := hpl.mp hset
    simp [hset, hcur]
    omega
  · have hcur : s.p_fiber_to_exec ≠ s.kernel_fiber := fun h => hset (hpl.mpr h)
    simp [hset, hcur]
    omega

/-- Unless it is the kernel fiber that yields without a pending counter, an iteration of
`main_thread_func` hands neither `fiber_pool.push_back` nor `fiber_wait_list.push` the kernel
fiber, leaves the kernel fiber in its own place, and keeps the number of worker fibers
accounted for. -/
theorem main_thread_iter_spares_kernel (mem : Nat → Nat) (pick pending : Nat)
    (s s1 : main_thread_state) (hkernel : s.kernel_fiber ≠ 0) (hwf : wl_parked s.wait_list)
    (hnd : s.fibers.Nodup) (hpl : kernel_placed s)
    (hyield : pending ≠ 0 ∨ s.p_fiber_to_exec ≠ s.kernel_fiber)
    (h : main_thread_iter mem pick pending s = some s1) :
    (∃ extra, s1.calls = s.calls ++ extra ∧
        sched_call.pool_push_back s.kernel_fiber ∉ extra ∧
        ∀ c, sched_call.wait_list_push s.kernel_fiber c ∉ extra) ∧
    kernel_placed s1 ∧
    accounted_fibers s1.kernel_fiber s1.pool s1.wait_list [s1.p_fiber_to_exec]
      = accounted_fibers s.kernel_fiber s.pool s.wait_list [s.p_fiber_to_exec] := by
  obtain ⟨⟨_, _, hent, hcurpool⟩, hk⟩ := main_apart_of_nodup s hwf.1 hnd
  obtain ⟨hperm, hwf1, hker1⟩ := main_thread_iter_fibers mem pick pending s s1 hkernel hwf h
  have hcalls_placed : (∃ extra, s1.calls = s.calls ++ extra ∧
        sched_call.pool_push_back s.kernel_fiber ∉ extra ∧
        ∀ c, sched_call.wait_list_push s.kernel_fiber c ∉ extra) ∧ kernel_placed s1 := by
    unfold main_thread_iter at h
    by_cases hp : pending = 0
    · have hcur : s.p_fiber_to_exec ≠ s.kernel_fiber := by
        rcases hyield with h1 | h1
        · exact absurd hp h1
        · exact h1
      have hset : s.p_main_wait_counter ≠ 0 := fun h0 => hcur (hpl.mp h0)
      simp only [hp, ne_eq, not_true_eq_false, if_false] at h
      by_cases hb : s.p_main_wait_counter ≠ 0 ∧ mem s.p_main_wait_counter = 0
      · simp only [hb, ne_eq, not_false_eq_true, and_self, if_true, Option.map_some',
          Option.some.injEq, hkernel] at h
        subst h
        refine ⟨⟨[.pool_push_back s.p_fiber_to_exec], rfl, ?_, ?_⟩, ?_⟩
        · simpa using fun heq => hcur heq.symm
        · simp
        · simp [kernel_placed]
      · simp only [hb, if_false] at h
        rcases try_pop_spec mem s.wait_list 0 hwf.1 with
          ⟨h1, _⟩ | ⟨e0, wl', hmem, _, hres, _⟩
        · simp only [h1, Option.map_some', ne_eq, not_true_eq_false, if_false,
            Option.some.injEq] at h
          subst h
          exact ⟨⟨[], by simp, by simp, by simp⟩, hpl⟩
        · have hne : e0.p_fiber ≠ 0 := hwf.2 e0 hmem
          simp only [hres, Option.map_some', ne_eq, hne, not_false_eq_true, if_true,
            Option.some.injEq] at h
          subst h
          refine ⟨⟨[.pool_push_back s.p_fiber_to_exec], rfl, ?_, ?_⟩, ?_⟩
          · simpa using fun heq => hcur heq.symm
          · simp
          · simp only [kernel_placed]
            constructor
            · intro h0
              exact absurd h0 hset
            · intro heq
              exact absurd heq ((hk hset).2.2 e0 hmem)
    · simp only [hp, ne_eq, not_false_eq_true, if_true] at h
      by_cases hset : s.p_main_wait_counter = 0
      · simp only [hset, not_true_eq_false, if_false] at h
        by_cases hker : s.p_fiber_to_exec = s.kernel_fiber
        · simp only [hker, if_true, Option.some_bind] at h
          cases hpop : s.pool.pop pick with
          | none => rw [hpop] at h; cases h
          | some r =>
            obtain ⟨f, pool'⟩ := r
            rw [hpop] at h
            simp only [Option.map_some', Option.some.injEq] at h
            subst h
            have hf := pool_pop_mem pick s.pool pool' f hpop
            refine ⟨⟨[], by simp, by simp, by simp⟩, ?_⟩
            simp only [kernel_placed]
            constructor
            · intro h0
              exact absurd h0 hp
            · intro heq
              exact absurd (heq ▸ hf) (hker ▸ hcurpool)
        · simp [hker] at h
      · simp only [hset, not_false_eq_true, if_true] at h
        have hcur : s.p_fiber_to_exec ≠ s.kernel_fiber := (hk hset).1
        cases hpush : s.wait_list.push mem s.p_fiber_to_exec pending with
        | none => rw [hpush] at h; simp at h
        | some wl' =>
          rw [hpush] at h
          simp only [Option.map_some', Option.some_bind] at h
          cases hpop : s.pool.pop pick with
          | none => rw [hpop] at h; cases h
          | some r =>
            obtain ⟨f, pool'⟩ := r
            rw [hpop] at h
            simp only [Option.map_some', Option.some.injEq] at h
            subst h
            have hf := pool_pop_mem pick s.pool pool' f hpop
            refine ⟨⟨[.wait_list_push s.p_fiber_to_exec pending], rfl, by simp, ?_⟩, ?_⟩
            · intro c
              simpa using fun heq _ => hcur heq.symm
            · simp only [kernel_placed]
              constructor
              · intro h0
                exact absurd h0 hset
              · intro heq
                exact absurd (heq ▸ hf) (hk hset).2.1
  refine ⟨hcalls_placed.1, hcalls_placed.2, ?_⟩
  have e1 := accounted_of_placed s1 hwf1.1 hcalls_placed.2
  have e0 := accounted_of_placed s hwf.1 hpl
  have := hperm.length_eq
  omega

/-- An iteration of `worker_thread_func` on a state that does not hold the kernel fiber keeps
the number of worker fibers accounted for, and still does not hold the kernel fiber. -/
theorem worker_thread_iter_accounted (kernel_fiber : Nat) (mem : Nat → Nat)
    (pick pending p_fpr : Nat) (w w1 : worker_thread_state) (hwf : wl_parked w.wait_list)
    (hout : kernel_fiber ∉ w.fibers)
    (h : worker_thread_iter mem pick pending p_fpr w = some w1) :
    accounted_fibers kernel_fiber w1.pool w1.wait_list [w1.p_fiber_to_exec]
      = accounted_fibers kernel_fiber w.pool w.wait_list [w.p_fiber_to_exec] ∧
    kernel_fiber ∉ w1.fibers := by
  obtain ⟨hperm, hwf1⟩ := worker_thread_iter_fibers mem pick pending p_fpr w w1 hwf h
  have hout1 : kernel_fiber ∉ w1.fibers := fun hin => hout (hperm.subset hin)
  refine ⟨?_, hout1⟩
  have hc : w.p_fiber_to_exec ≠ kernel_fiber := by
    intro heq
    apply hout
    simp [worker_thread_state.fibers, heq]
  have hc1 : w1.p_fiber_to_exec ≠ kernel_fiber := by
    intro heq
    apply hout1
    simp [worker_thread_state.fibers, heq]
  have hlen := hperm.length_eq
  simp only [worker_thread_state.fibers, List.length_append, List.length_map,
    List.length_singleton, stored_length _ hwf.1, stored_length _ hwf1.1] at hlen
  simp only [accounted_fibers, List.filter_cons, List.filter_nil, hc, hc1, ne_eq,
    not_false_eq_true, decide_True, if_true, List.length_singleton]
  omega

/-- Every loop iteration of every thread only moves fibers between their places: the fibers of
the whole system stay the same. -/
theorem system_step_fibers (st : thread_step) (g g1 : system_state)
    (hkernel : g.main.kernel_fiber ≠ 0) (hwf : wl_parked g.main.wait_list)
    (h : system_step st g = some g1) :
    g1.fibers.Perm g.fibers ∧ wl_parked g1.main.wait_list ∧
      g1.main.kernel_fiber = g.main.kernel_fiber := by
  cases st with
  | main y =>
    simp only [system_step] at h
    cases hit : main_thread_iter y.mem y.pool_pick y.pending g.main with
    | none => rw [hit] at h; cases h
    | some m =>
      rw [hit] at h
      simp only [Option.map_some', Option.some.injEq] at h
      subst h
      obtain ⟨h1, h2, h3⟩ := main_thread_iter_fibers _ _ _ _ _ hkernel hwf hit
      exact ⟨h1.append_right _, h2, h3⟩
  | worker i y p_fpr =>
    simp only [system_step] at h
    cases hcur : g.workers[i]? with
    | none => rw [hcur] at h; cases h
    | some cur =>
      rw [hcur] at h
      simp only at h
      cases hit : worker_thread_iter y.mem y.pool_pick y.pending p_fpr (g.worker_view cur) with
      | none => rw [hit] at h; cases h
      | some w =>
        rw [hit] at h
        simp only [Option.map_some', Option.some.injEq] at h
        subst h
        obtain ⟨h1, h2⟩ := worker_thread_iter_fibers _ _ _ _ (g.worker_view cur) w hwf hit
        refine ⟨?_, h2, rfl⟩
        have hset := set_perm_cons w.p_fiber_to_exec g.workers i cur hcur
        simp only [system_state.fibers, main_thread_state.fibers, worker_thread_state.fibers,
          system_state.worker_view] at h1 ⊢
        rw [← Multiset.coe_eq_coe] at h1 hset ⊢
        simp only [← Multiset.coe_add, ← Multiset.cons_coe, ← Multiset.singleton_add,
          Multiset.coe_nil, add_zero] at h1 hset ⊢
        have e1 : (↑(g.workers.set i w.p_fiber_to_exec) : Multiset Nat) + {cur}
            = {w.p_fiber_to_exec} + ↑g.workers := by
          rw [add_comm]
          exact hset
        have key : ∀ (K : Multiset Nat), (↑w.pool.fibers
            + (↑(List.map list_entry.p_fiber w.wait_list.stored) + (K
            + ↑(g.workers.set i w.p_fiber_to_exec))) : Multiset Nat) + {cur}
            = (↑g.main.pool.fibers + (↑(List.map list_entry.p_fiber g.main.wait_list.stored)
            + (K + ↑g.workers))) + {cur} := by
          intro K
          calc (↑w.pool.fibers + (↑(List.map list_entry.p_fiber w.wait_list.stored) + (K
                + ↑(g.workers.set i w.p_fiber_to_exec))) : Multiset Nat) + {cur}
              = (↑w.pool.fibers + (↑(List.map list_entry.p_fiber w.wait_list.stored)
                  + {w.p_fiber_to_exec})) + (K + ↑g.workers) := by
                rw [show ∀ (A B C D : Multiset Nat), A + (B + (C + D)) + {cur}
                  = A + B + C + (D + {cur}) from fun A B C D => by ac_rfl, e1]
                ac_rfl
            _ = (↑g.main.pool.fibers + (↑(List.map list_entry.p_fiber g.main.wait_list.stored)
                  + {cur})) + (K + ↑g.workers) := by rw [h1]
            _ = _ := by ac_rfl
        have hk := key ({g.main.p_fiber_to_exec}
          + ↑(if g.main.p_main_wait_counter ≠ 0 then [g.main.kernel_fiber] else []))
        refine add_right_cancel (b := ({cur} : Multiset Nat)) ?_
        refine Eq.trans ?_ (Eq.trans hk ?_) <;> ac_rfl

/-- Along any interleaving of loop iterations the fibers of the whole system stay the same. -/
theorem system_run_fibers : ∀ (sts : List thread_step) (g g1 : system_state),
    g.main.kernel_fiber ≠ 0 → wl_parked g.main.wait_list → system_run sts g = some g1 →
    g1.fibers.Perm g.fibers ∧ wl_parked g1.main.wait_list ∧
      g1.main.kernel_fiber = g.main.kernel_fiber
  | [], g, g1, _, hwf, h => by
    simp only [system_run, Option.some.injEq] at h
    subst h
    exact ⟨List.Perm.refl _, hwf, rfl⟩
  | st :: sts, g, g1, hkernel, hwf, h => by
    simp only [system_run] at h
    cases hst : system_step st g with
    | none => rw [hst] at h; cases h
    | some g2 =>
      rw [hst] at h
      simp only [Option.some_bind] at h
      obtain ⟨h1, h2, h3⟩ := system_step_fibers st g g2 hkernel hwf hst
      obtain ⟨h4, h5, h6⟩ := system_run_fibers sts g2 g1 (h3 ▸ hkernel) h2 h
      exact ⟨h4.trans h1, h5, h6.trans h3⟩

/-- In every state the threads reach together from a state with every fiber in one place only,
every fiber is still in one place only: the launching thread and every worker thread see the
parked fibers apart from the pool and from their runnable fiber, and a waiting kernel fiber
apart from everything else. -/
theorem system_run_apart (sts : List thread_step) (g g1 : system_state)
    (hkernel : g.main.kernel_fiber ≠ 0) (hwf : wl_parked g.main.wait_list)
    (hnd : g.fibers.Nodup) (h : system_run sts g = some g1) :
    g1.fibers.Nodup ∧
      parked_apart g1.main.p_fiber_to_exec g1.main.pool g1.main.wait_list ∧
      kernel_apart g1.main ∧
      ∀ cur ∈ g1.workers, parked_apart cur g1.main.pool g1.main.wait_list := by
  obtain ⟨hperm, hwf1, _⟩ := system_run_fibers sts g g1 hkernel hwf h
  have hnd1 : g1.fibers.Nodup := hperm.symm.nodup_iff.mp hnd
  have hmain : g1.main.fibers.Nodup := by
    unfold system_state.fibers at hnd1
    exact (List.nodup_append.mp hnd1).1
  obtain ⟨ha, hk⟩ := main_apart_of_nodup g1.main hwf1.1 hmain
  refine ⟨hnd1, ha, hk, ?_⟩
  intro cur hcur
  apply worker_apart_of_nodup ⟨cur, g1.main.pool, g1.main.wait_list, []⟩ hwf1.1
  unfold system_state.fibers main_thread_state.fibers at hnd1
  simp only [worker_thread_state.fibers]
  rw [List.nodup_append] at hnd1
  obtain ⟨hm, _, hdisj⟩ := hnd1
  rw [List.nodup_append] at hm
  obtain ⟨hpool, hrest, hdisj2⟩ := hm
  rw [List.nodup_append] at hrest
  obtain ⟨hpark, _, _⟩ := hrest
  rw [List.nodup_append]
  refine ⟨hpool, ?_, ?_⟩
  · rw [List.nodup_append]
    refine ⟨hpark, List.nodup_singleton _, ?_⟩
    intro a ha hb
    rw [List.mem_singleton] at hb
    subst hb
    exact hdisj (List.mem_append_right _ (List.mem_append_left _ ha)) hcur
  · intro a ha hb
    rw [List.mem_append, List.mem_singleton] at hb
    rcases hb with hb | hb
    · exact hdisj2 ha (List.mem_append_left _ hb)
    · subst hb
      exact hdisj (List.mem_append_left _ ha) hcur

/-! ## Properties of the specification -/

/-- C1: on every wait list whose slots `0 .. push_index_ - 1` hold entries with a counter, and
for every assignment of counter values, `try_pop` returns; it returns true exactly when some
stored entry has a counter equal to zero; when it returns true, `p_out_fiber` is the fiber of a
stored entry whose counter is zero, the number of stored entries drops by one, and the stored
entries are the original ones with that entry taken out (as a multiset); when it returns false
the list and `p_out_fiber` are unchanged. -/
theorem try_pop_correct (mem : Nat → Nat) (wl : fiber_wait_list) (p_out_fiber : Nat)
    (hwf : wl_wf wl) :
    ∃ r out wl', wl.try_pop mem p_out_fiber = some (r, out, wl') ∧
      (r = true ↔ ∃ e ∈ wl.stored, mem e.p_wait_counter = 0) ∧
      (r = true → ∃ e ∈ wl.stored, mem e.p_wait_counter = 0 ∧ out = e.p_fiber ∧
          wl'.push_index_ + 1 = wl.push_index_ ∧
          wl'.stored.length + 1 = wl.stored.length ∧
          wl.stored.Perm (e :: wl'.stored)) ∧
      (r = false → wl' = wl ∧ out = p_out_fiber) := by
  rcases try_pop_spec mem wl p_out_fiber hwf with ⟨h1, h2⟩ | ⟨e, wl', hmem, hz, hres, hidx, _, hperm⟩
  · refine ⟨false, p_out_fiber, wl, h1, ?_, by simp, by simp⟩
    simp only [Bool.false_eq_true, false_iff, not_exists, not_and]
    exact h2
  · refine ⟨true, e.p_fiber, wl', hres, ?_, ?_, by simp⟩
    · simp only [true_iff]
      exact ⟨e, hmem, hz⟩
    · intro _
      refine ⟨e, hmem, hz, rfl, hidx, ?_, hperm⟩
      have := hperm.length_eq
      simp at this
      omega

/-- A wait list with three parked fibers, the middle one ready: `try_pop` hands out fiber 2. -/
theorem try_pop_correct_witness :
    wl_wf ⟨[⟨1, 100⟩, ⟨2, 101⟩, ⟨3, 102⟩, ⟨0, 0⟩], 3⟩ ∧
    ∃ r out wl', (fiber_wait_list.mk [⟨1, 100⟩, ⟨2, 101⟩, ⟨3, 102⟩, ⟨0, 0⟩] 3).try_pop
        (fun a => if a = 101 then 0 else 1) 0 = some (r, out, wl') ∧
      (r = true ↔ ∃ e ∈ (fiber_wait_list.mk [⟨1, 100⟩, ⟨2, 101⟩, ⟨3, 102⟩, ⟨0, 0⟩] 3).stored,
          (fun a => if a = 101 then 0 else 1) e.p_wait_counter = 0) ∧
      (r = true → ∃ e ∈ (fiber_wait_list.mk [⟨1, 100⟩, ⟨2, 101⟩, ⟨3, 102⟩, ⟨0, 0⟩] 3).stored,
          (fun a => if a = 101 then 0 else 1) e.p_wait_counter = 0 ∧ out = e.p_fiber ∧
          wl'.push_index_ + 1 = 3 ∧
          wl'.stored.length + 1
            = (fiber_wait_list.mk [⟨1, 100⟩, ⟨2, 101⟩, ⟨3, 102⟩, ⟨0, 0⟩] 3).stored.length ∧
          (fiber_wait_list.mk [⟨1, 100⟩, ⟨2, 101⟩, ⟨3, 102⟩, ⟨0, 0⟩] 3).stored.Perm
            (e :: wl'.stored)) ∧
      (r = false → wl' = ⟨[⟨1, 100⟩, ⟨2, 101⟩, ⟨3, 102⟩, ⟨0, 0⟩], 3⟩ ∧ out = 0) :=
  ⟨by simp [wl_wf, fiber_wait_list.stored],
   try_pop_correct (fun a => if a = 101 then 0 else 1)
     ⟨[⟨1, 100⟩, ⟨2, 101⟩, ⟨3, 102⟩, ⟨0, 0⟩], 3⟩ 0 (by simp [wl_wf, fiber_wait_list.stored])⟩

/-- C2: a call `run(p_tasks, count, p_wait_counter)` with `count >= 1` on an initialised system
whose regular queue has room for `count` tasks returns; a non-null `p_wait_counter` holds
`count` afterwards; the regular queue has grown by `count` tasks, namely `p_tasks[0 .. count-1]`
in that order behind the old content, each with `p_wait_counter` as its counter reference;
`report.task_count` has grown by `count` (in `size_t`, so by exactly `count` while the sum is
representable) and `report.task_immediate_count` is unchanged. Hence after any sequence of
submissions and worker pops on a fresh system that hands in N tasks in total,
`task_count + task_immediate_count` is N (in `size_t`). -/
theorem run_submits (st : task_system_state) (mem : Nat → Nat) (p_tasks : List task_desc)
    (count p_wait_counter : Nat)
    (hcount : 1 ≤ count) (harray : count ≤ p_tasks.length)
    (hvalid : st.queue.valid) (hroom : st.queue.size + count ≤ st.queue.capacity) :
    (∃ st1 mem1, run (some st) mem p_tasks count p_wait_counter = some (st1, mem1) ∧
      (p_wait_counter ≠ 0 → mem1 p_wait_counter = count) ∧
      st1.queue.size = st.queue.size + count ∧
      st1.queue.items = st.queue.items ++
        (p_tasks.take count).map (fun td => ⟨td.func, p_wait_counter⟩) ∧
      st1.report.task_count = (st.report.task_count + count) % size_t_modulus ∧
      (st.report.task_count + count < size_t_modulus →
        st1.report.task_count = st.report.task_count + count) ∧
      st1.report.task_immediate_count = st.report.task_immediate_count ∧
      st1.queue_immediate.items = st.queue_immediate.items) ∧
    (∀ (evs : List system_event) (queue_size queue_immediate_size threads : Nat)
        (mem0 : Nat → Nat) (st2 : task_system_state) (mem2 : Nat → Nat),
      play evs (task_system_state.create queue_size queue_immediate_size threads, mem0)
          = some (st2, mem2) →
      (st2.report.task_count + st2.report.task_immediate_count) % size_t_modulus
          = submitted evs % size_t_modulus ∧
      (submitted evs < size_t_modulus →
        st2.report.task_count + st2.report.task_immediate_count = submitted evs)) := by
  constructor
  · obtain ⟨q, hq, hitems, _, hsize, _⟩ :=
      emplace_tasks_spec p_tasks p_wait_counter count 0 st.queue hvalid (by omega) hroom
    have hc0 : count ≠ 0 := by omega
    refine ⟨{ st with
                queue := q,
                report := { st.report with
                            task_count := (st.report.task_count + count) % size_t_modulus } },
      if p_wait_counter ≠ 0 then Function.update mem p_wait_counter count else mem,
      by simp only [run, hc0, if_false, hq], ?_, hsize, ?_, rfl, ?_, rfl, rfl⟩
    · intro hp
      simp [hp]
    · simpa using hitems
    · intro hlt
      exact Nat.mod_eq_of_lt hlt
  · intro evs queue_size queue_immediate_size threads mem0 st2 mem2 hplay
    obtain ⟨h1, h2⟩ := play_report evs _ mem0 st2 mem2 hplay (by
      simp [task_system_state.create, size_t_modulus])
    simp only [task_system_state.create, Nat.zero_add] at h1 h2
    rw [h1, h2]
    refine ⟨by simp, fun hlt => ?_⟩
    rw [Nat.mod_eq_of_lt hlt]
    rfl

/-- A fresh system with a regular queue of four slots takes two tasks with the counter at
address 100. -/
theorem run_submits_witness :
    (∃ st1 mem1, run (some (task_system_state.create 4 4 1)) (fun _ => 0) [⟨7⟩, ⟨8⟩] 2 100
        = some (st1, mem1) ∧
      ((100 : Nat) ≠ 0 → mem1 100 = 2) ∧
      st1.queue.size = (task_system_state.create 4 4 1).queue.size + 2 ∧
      st1.queue.items = (task_system_state.create 4 4 1).queue.items ++
        (([⟨7⟩, ⟨8⟩] : List task_desc).take 2).map (fun td => ⟨td.func, 100⟩) ∧
      st1.report.task_count
        = ((task_system_state.create 4 4 1).report.task_count + 2) % size_t_modulus ∧
      ((task_system_state.create 4 4 1).report.task_count + 2 < size_t_modulus →
        st1.report.task_count = (task_system_state.create 4 4 1).report.task_count + 2) ∧
      st1.report.task_immediate_count
        = (task_system_state.create 4 4 1).report.task_immediate_count ∧
      st1.queue_immediate.items = (task_system_state.create 4 4 1).queue_immediate.items) ∧
    (∀ (evs : List system_event) (queue_size queue_immediate_size threads : Nat)
        (mem0 : Nat → Nat) (st2 : task_system_state) (mem2 : Nat → Nat),
      play evs (task_system_state.create queue_size queue_immediate_size threads, mem0)
          = some (st2, mem2) →
      (st2.report.task_count + st2.report.task_immediate_count) % size_t_modulus
          = submitted evs % size_t_modulus ∧
      (submitted evs < size_t_modulus →
        st2.report.task_count + st2.report.task_immediate_count = submitted evs)) :=
  run_submits (task_system_state.create 4 4 1) (fun _ => 0) [⟨7⟩, ⟨8⟩] 2 100
    (by decide) (by decide) (concurrent_queue.valid_create 4) (by decide)

/-- C3: evaluation of `main_thread_func` on the run `kernel_exit_yields` (kernel fiber 1, worker
fibers 11 and 12). When the kernel fiber comes back from the finished kernel function while the
parked fiber 11 is ready, the controller calls `fiber_pool.push_back` with the handle of the
kernel fiber: the kernel fiber ends up in the pool. -/
theorem kernel_fiber_pushed_to_pool :
    main_thread_func 1 ⟨[11, 12]⟩ (fiber_wait_list.create 2) kernel_exit_yields
      = some ⟨1, 0, 11, ⟨[12, 1]⟩, ⟨[⟨0, 0⟩, ⟨0, 0⟩], 0⟩,
          [.wait_list_push 11 200, .pool_push_back 12, .pool_push_back 1]⟩ ∧
    sched_call.pool_push_back 1 ∈
      [sched_call.wait_list_push 11 200, .pool_push_back 12, .pool_push_back 1] ∧
    (1 : Nat) ∈ (fiber_pool.mk [12, 1]).fibers := by
  refine ⟨by decide, by decide, by decide⟩

/-- C5: called on a fiber other than the controller, `wait_for` returns; it switches fibers
exactly when the counter is not zero; with a zero counter nothing changes (no switch, the
pending suspend counter as before); with a non-zero counter the pending suspend counter holds
the address of the counter at the moment of the one switch made, and that switch goes to the
controller fiber of the thread. -/
theorem wait_for_switch_iff (mem : Nat → Nat) (wait_counter : Nat) (ctx : fiber_context)
    (hfiber : ctx.current_fiber ≠ ctx.p_controller_fiber) :
    ∃ ctx', wait_for true mem wait_counter ctx = some ctx' ∧
      (ctx'.switches ≠ ctx.switches ↔ mem wait_counter ≠ 0) ∧
      (mem wait_counter = 0 → ctx' = ctx) ∧
      (mem wait_counter ≠ 0 →
        ctx'.p_wait_list_counter = wait_counter ∧
        ctx'.switches = ctx.switches ++ [(ctx.p_controller_fiber, wait_counter)] ∧
        ctx'.current_fiber = ctx.p_controller_fiber ∧
        ctx'.p_controller_fiber = ctx.p_controller_fiber) := by
  by_cases hz : mem wait_counter = 0
  · refine ⟨ctx, by simp [wait_for, hfiber, hz], by simp [hz], fun _ => rfl, fun h => absurd hz h⟩
  · refine ⟨switch_to_fiber ctx.p_controller_fiber { ctx with p_wait_list_counter := wait_counter },
      by simp [wait_for, hfiber, hz], ?_, fun h => absurd h hz, fun _ => ?_⟩
    · simp [switch_to_fiber, hz]
    · simp [switch_to_fiber]

/-- A worker fiber 11 of a thread with controller 5 waits on the counter at address 100, which
holds 2: it switches to the controller with the counter pending. -/
theorem wait_for_switch_iff_witness :
    (11 : Nat) ≠ 5 ∧
    ∃ ctx', wait_for true (fun _ => 2) 100 ⟨5, 0, 11, []⟩ = some ctx' ∧
      (ctx'.switches ≠ [] ↔ (2 : Nat) ≠ 0) ∧
      ((2 : Nat) = 0 → ctx' = ⟨5, 0, 11, []⟩) ∧
      ((2 : Nat) ≠ 0 →
        ctx'.p_wait_list_counter = 100 ∧
        ctx'.switches = [] ++ [(5, 100)] ∧
        ctx'.current_fiber = 5 ∧
        ctx'.p_controller_fiber = 5) :=
  ⟨by decide, wait_for_switch_iff (fun _ => 2) 100 ⟨5, 0, 11, []⟩ (by decide)⟩

/-- C6: in both controller loops a fiber that yielded through `wait_for` is chosen as the next
fiber to switch into only when its counter reads zero. For an iteration of `main_thread_func`
(from `s` to `s1`) and one of `worker_thread_func` (from `w` to `w1`), each in a state where the
parked fibers are apart from the pool and the runnable fiber: a fiber stored in the wait list
is the next runnable fiber only if its counter reads zero in this iteration; the kernel fiber,
waiting on the kernel wait counter, is the next runnable fiber only if that counter reads zero;
and a fiber that has just yielded with a pending counter is not chosen again but recorded with
that counter (in the wait list, or as the kernel wait counter for the kernel fiber). -/
theorem resumed_only_at_zero
    (mem_m : Nat → Nat) (pick_m pending_m : Nat) (s s1 : main_thread_state)
    (mem_w : Nat → Nat) (pick_w pending_w p_fpr : Nat) (w w1 : worker_thread_state)
    (hs : parked_apart s.p_fiber_to_exec s.pool s.wait_list) (hk : kernel_apart s)
    (hw : parked_apart w.p_fiber_to_exec w.pool w.wait_list)
    (hsi : main_thread_iter mem_m pick_m pending_m s = some s1)
    (hwi : worker_thread_iter mem_w pick_w pending_w p_fpr w = some w1) :
    ((∀ e ∈ s.wait_list.stored, s1.p_fiber_to_exec = e.p_fiber → mem_m e.p_wait_counter = 0) ∧
      (s.p_main_wait_counter ≠ 0 → s1.p_fiber_to_exec = s.kernel_fiber →
        mem_m s.p_main_wait_counter = 0) ∧
      (pending_m ≠ 0 → s1.p_fiber_to_exec ≠ s.p_fiber_to_exec ∧
        (⟨s.p_fiber_to_exec, pending_m⟩ ∈ s1.wait_list.stored ∨
          (s.p_fiber_to_exec = s.kernel_fiber ∧ s1.p_main_wait_counter = pending_m)))) ∧
    ((∀ e ∈ w.wait_list.stored, w1.p_fiber_to_exec = e.p_fiber → mem_w e.p_wait_counter = 0) ∧
      (pending_w ≠ 0 → w1.p_fiber_to_exec ≠ w.p_fiber_to_exec ∧
        ⟨w.p_fiber_to_exec, pending_w⟩ ∈ w1.wait_list.stored)) := by
  obtain ⟨hswf, hsnd, hsent, hscur⟩ := hs
  obtain ⟨hwwf, hwnd, hwent, hwcur⟩ := hw
  constructor
  · unfold main_thread_iter at hsi
    by_cases hp : pending_m = 0
    · -- the fiber yielded without a pending counter
      simp only [hp, ne_eq, not_true_eq_false, if_false] at hsi
      by_cases hb : s.p_main_wait_counter ≠ 0 ∧ mem_m s.p_main_wait_counter = 0
      · -- the kernel fiber is ready
        simp only [hb, ne_eq, not_false_eq_true, and_self, if_true, Option.map_some',
          Option.some.injEq] at hsi
        have hcur : s1.p_fiber_to_exec = s.kernel_fiber ∨ s1.p_fiber_to_exec = s.p_fiber_to_exec := by
          split at hsi <;> subst hsi <;> simp
        refine ⟨?_, fun _ _ => hb.2, fun h => absurd hp h⟩
        intro e he heq
        rcases hcur with h | h
        · exact absurd (heq.symm.trans h) ((hk hb.1).2.2 e he)
        · exact absurd (heq.symm.trans h) (hsent e he).1
      · simp only [hb, if_false] at hsi
        rcases try_pop_spec mem_m s.wait_list 0 hswf with ⟨h1, h2⟩ | ⟨e0, wl', hmem, hz, hres, _⟩
        · -- nothing is ready: the runnable fiber stays
          simp only [h1, Option.map_some', ne_eq, not_true_eq_false, if_false,
            Option.some.injEq] at hsi
          subst hsi
          refine ⟨?_, ?_, fun h => absurd hp h⟩
          · intro e he heq
            exact absurd heq.symm (hsent e he).1
          · intro hset heq
            exact absurd heq (hk hset).1
        · simp only [hres, Option.map_some', Option.some.injEq] at hsi
          have hcur : s1.p_fiber_to_exec = e0.p_fiber ∨ s1.p_fiber_to_exec = s.p_fiber_to_exec := by
            split at hsi <;> subst hsi <;> simp
          refine ⟨?_, ?_, fun h => absurd hp h⟩
          · intro e he heq
            rcases hcur with h | h
            · have : e = e0 := stored_entry_unique s.wait_list hsnd e e0 he hmem (heq.symm.trans h)
              rw [this]
              exact hz
            · exact absurd (heq.symm.trans h) (hsent e he).1
          · intro hset heq
            rcases hcur with h | h
            · exact absurd (h.symm.trans heq) ((hk hset).2.2 e0 hmem)
            · exact absurd (h.symm.trans heq) (hk hset).1
    · -- the fiber yielded through wait_for
      simp only [hp, ne_eq, not_false_eq_true, if_true] at hsi
      by_cases hset : s.p_main_wait_counter = 0
      · simp only [hset, not_true_eq_false, if_false] at hsi
        by_cases hker : s.p_fiber_to_exec = s.kernel_fiber
        · simp only [hker, if_true, Option.some_bind] at hsi
          cases hpop : s.pool.pop pick_m with
          | none => rw [hpop] at hsi; cases hsi
          | some r =>
            obtain ⟨f, pool'⟩ := r
            rw [hpop] at hsi
            simp only [Option.map_some', Option.some.injEq] at hsi
            subst hsi
            have hf := pool_pop_mem pick_m s.pool pool' f hpop
            refine ⟨?_, fun h => absurd hset h, fun _ => ⟨?_, Or.inr ⟨hker, rfl⟩⟩⟩
            · intro e he heq
              simp only at heq
              exact absurd (heq ▸ hf) (hsent e he).2
            · simp only
              intro heq
              exact hscur (heq ▸ hf)
        · simp [hker] at hsi
      · simp only [hset, not_false_eq_true, if_true] at hsi
        cases hpush : s.wait_list.push mem_m s.p_fiber_to_exec pending_m with
        | none => rw [hpush] at hsi; simp at hsi
        | some wl' =>
          rw [hpush] at hsi
          simp only [Option.map_some', Option.some_bind] at hsi
          cases hpop : s.pool.pop pick_m with
          | none => rw [hpop] at hsi; cases hsi
          | some r =>
            obtain ⟨f, pool'⟩ := r
            rw [hpop] at hsi
            simp only [Option.map_some', Option.some.injEq] at hsi
            subst hsi
            have hf := pool_pop_mem pick_m s.pool pool' f hpop
            have hst := push_stored mem_m _ _ _ _ hpush
            refine ⟨?_, ?_, fun _ => ⟨?_, Or.inl ?_⟩⟩
            · intro e he heq
              simp only at heq
              exact absurd (heq ▸ hf) (hsent e he).2
            · intro _ heq
              simp only at heq
              exact absurd (heq ▸ hf) (hk hset).2.1
            · simp only
              intro heq
              exact hscur (heq ▸ hf)
            · simp only
              rw [hst]
              simp
  · unfold worker_thread_iter at hwi
    by_cases hp : pending_w = 0
    · simp only [hp, ne_eq, not_true_eq_false, if_false] at hwi
      rcases try_pop_spec mem_w w.wait_list p_fpr hwwf with ⟨h1, h2⟩ | ⟨e0, wl', hmem, hz, hres, _⟩
      · simp only [h1, Option.map_some', Bool.false_eq_true, if_false, Option.some.injEq] at hwi
        subst hwi
        refine ⟨?_, fun h => absurd hp h⟩
        intro e he heq
        exact absurd heq.symm (hwent e he).1
      · simp only [hres, Option.map_some', if_true, Option.some.injEq] at hwi
        subst hwi
        refine ⟨?_, fun h => absurd hp h⟩
        intro e he heq
        simp only at heq
        have : e = e0 := stored_entry_unique w.wait_list hwnd e e0 he hmem heq.symm
        rw [this]
        exact hz
    · simp only [hp, ne_eq, not_false_eq_true, if_true] at hwi
      cases hpush : w.wait_list.push mem_w w.p_fiber_to_exec pending_w with
      | none => rw [hpush] at hwi; cases hwi
      | some wl' =>
        rw [hpush] at hwi
        simp only [Option.some_bind] at hwi
        cases hpop : w.pool.pop pick_w with
        | none => rw [hpop] at hwi; cases hwi
        | some r =>
          obtain ⟨f, pool'⟩ := r
          rw [hpop] at hwi
          simp only [Option.map_some', Option.some.injEq] at hwi
          subst hwi
          have hf := pool_pop_mem pick_w w.pool pool' f hpop
          have hst := push_stored mem_w _ _ _ _ hpush
          refine ⟨?_, fun _ => ⟨?_, ?_⟩⟩
          · intro e he heq
            simp only at heq
            exact absurd (heq ▸ hf) (hwent e he).2
          · simp only
            intro heq
            exact hwcur (heq ▸ hf)
          · simp only
            rw [hst]
            simp

/-- On the launching thread fiber 12 yields without a pending counter and the ready fiber 11 is
taken from the wait list; on a worker thread fiber 21 yields through `wait_for` on the counter
at 300 and is parked. -/
theorem resumed_only_at_zero_witness :
    parked_apart main_sample.p_fiber_to_exec main_sample.pool main_sample.wait_list ∧
    kernel_apart main_sample ∧
    parked_apart worker_sample.p_fiber_to_exec worker_sample.pool worker_sample.wait_list ∧
    main_thread_iter mem_sample 0 0 main_sample
      = some ⟨1, 100, 11, ⟨[13, 12]⟩, ⟨[⟨0, 0⟩, ⟨0, 0⟩, ⟨0, 0⟩], 0⟩, [.pool_push_back 12]⟩ ∧
    worker_thread_iter mem_sample 0 300 0 worker_sample
      = some ⟨22, ⟨[]⟩, ⟨[⟨11, 200⟩, ⟨21, 300⟩, ⟨0, 0⟩], 2⟩, [.wait_list_push 21 300]⟩ ∧
    ((∀ e ∈ main_sample.wait_list.stored, (11 : Nat) = e.p_fiber →
        mem_sample e.p_wait_counter = 0) ∧
      (main_sample.p_main_wait_counter ≠ 0 → (11 : Nat) = main_sample.kernel_fiber →
        mem_sample main_sample.p_main_wait_counter = 0) ∧
      ((0 : Nat) ≠ 0 → (11 : Nat) ≠ main_sample.p_fiber_to_exec ∧
        (⟨main_sample.p_fiber_to_exec, 0⟩ ∈
            (fiber_wait_list.mk [⟨0, 0⟩, ⟨0, 0⟩, ⟨0, 0⟩] 0).stored ∨
          (main_sample.p_fiber_to_exec = main_sample.kernel_fiber ∧ (100 : Nat) = 0)))) ∧
    ((∀ e ∈ worker_sample.wait_list.stored, (22 : Nat) = e.p_fiber →
        mem_sample e.p_wait_counter = 0) ∧
      ((300 : Nat) ≠ 0 → (22 : Nat) ≠ worker_sample.p_fiber_to_exec ∧
        ⟨worker_sample.p_fiber_to_exec, 300⟩ ∈
          (fiber_wait_list.mk [⟨11, 200⟩, ⟨21, 300⟩, ⟨0, 0⟩] 2).stored)) :=
  have hm : parked_apart main_sample.p_fiber_to_exec main_sample.pool main_sample.wait_list := by
    simp [parked_apart, wl_wf, main_sample, fiber_wait_list.stored]
  have hk : kernel_apart main_sample := by
    simp [kernel_apart, main_sample, fiber_wait_list.stored]
  have hw : parked_apart worker_sample.p_fiber_to_exec worker_sample.pool
      worker_sample.wait_list := by
    simp [parked_apart, wl_wf, worker_sample, fiber_wait_list.stored]
  have hmi : main_thread_iter mem_sample 0 0 main_sample
      = some ⟨1, 100, 11, ⟨[13, 12]⟩, ⟨[⟨0, 0⟩, ⟨0, 0⟩, ⟨0, 0⟩], 0⟩, [.pool_push_back 12]⟩ := by
    decide
  have hwi : worker_thread_iter mem_sample 0 300 0 worker_sample
      = some ⟨22, ⟨[]⟩, ⟨[⟨11, 200⟩, ⟨21, 300⟩, ⟨0, 0⟩], 2⟩, [.wait_list_push 21 300]⟩ := by
    decide
  ⟨hm, hk, hw, hmi, hwi,
    resumed_only_at_zero mem_sample 0 0 main_sample _ mem_sample 0 300 0 worker_sample _
      hm hk hw hmi hwi⟩

/-- C7: evaluation of the last step of the run `kernel_exit_yields` with `fiber_count = 2`.
Before the step the pool holds fiber 12, the wait list holds fiber 11 and the kernel fiber is
runnable: 1 + 1 + 0 = 2. The step (the kernel fiber yields without a pending counter, fiber 11
is taken from the wait list) leaves two fibers in the pool, none parked and one worker fiber
runnable: 2 + 0 + 1 = 3. -/
theorem fiber_count_broken_at_kernel_exit :
    main_thread_func 1 ⟨[11, 12]⟩ (fiber_wait_list.create 2) (kernel_exit_yields.take 3)
      = some ⟨1, 0, 1, ⟨[12]⟩, ⟨[⟨11, 200⟩, ⟨0, 0⟩], 1⟩,
          [.wait_list_push 11 200, .pool_push_back 12]⟩ ∧
    accounted_fibers 1 ⟨[12]⟩ ⟨[⟨11, 200⟩, ⟨0, 0⟩], 1⟩ [1] = 2 ∧
    main_thread_iter mem_released 0 0
        ⟨1, 0, 1, ⟨[12]⟩, ⟨[⟨11, 200⟩, ⟨0, 0⟩], 1⟩, [.wait_list_push 11 200, .pool_push_back 12]⟩
      = some ⟨1, 0, 11, ⟨[12, 1]⟩, ⟨[⟨0, 0⟩, ⟨0, 0⟩], 0⟩,
          [.wait_list_push 11 200, .pool_push_back 12, .pool_push_back 1]⟩ ∧
    accounted_fibers 1 ⟨[12, 1]⟩ ⟨[⟨0, 0⟩, ⟨0, 0⟩], 0⟩ [11] = 3 := by
  refine ⟨by decide, by decide, by decide, by decide⟩

/-- C8: `is_valid_task_system_desc` returns true exactly when `thread_count`, `fiber_count`,
`queue_size` and `queue_immediate_size` are all at least 1, and its result does not depend on
`fiber_stack_byte_count`. -/
theorem is_valid_task_system_desc_iff (desc : task_system_desc) :
    (is_valid_task_system_desc desc = true ↔
        1 ≤ desc.thread_count ∧ 1 ≤ desc.fiber_count ∧ 1 ≤ desc.queue_size ∧
          1 ≤ desc.queue_immediate_size) ∧
    ∀ n : Nat, is_valid_task_system_desc { desc with fiber_stack_byte_count := n }
        = is_valid_task_system_desc desc := by
  constructor
  · simp only [is_valid_task_system_desc, Bool.and_eq_true, decide_eq_true_eq]
    omega
  · intro n
    rfl

/-- C9: on one thread, any mix of `push`, `emplace` and bulk `push` on a freshly built queue
(which is empty, of size 0, with waiting allowed), appending no more values than the capacity,
succeeds and leaves `size()` equal to the number of values appended; as many `try_pop` /
`wait_pop` calls, in any mix, then each return true and hand out the values in the order they
were appended, `size()` going down by one per call, and `empty()` is true after the last. -/
theorem queue_fifo_one_thread {α : Type} (capacity : Nat) (ops : List (append_op α))
    (pops : List pop_op)
    (hfit : (appended ops).length ≤ capacity)
    (hpops : pops.length = (appended ops).length) :
    (concurrent_queue.create capacity : concurrent_queue α).empty = true ∧
    (concurrent_queue.create capacity : concurrent_queue α).size = 0 ∧
    (concurrent_queue.create capacity : concurrent_queue α).wait_allowed = true ∧
    ∃ q, (concurrent_queue.create capacity).apply_appends ops = some q ∧
      q.size = (appended ops).length ∧
      ∃ res q', q.apply_pops pops = some (res, q') ∧
        res.map Prod.fst = (appended ops).map some ∧
        res.map Prod.snd = (List.range (appended ops).length).reverse ∧
        q'.empty = true := by
  refine ⟨rfl, rfl, rfl, ?_⟩
  obtain ⟨q, hq, hitems, hv, hsize, _, _⟩ :=
    concurrent_queue.items_apply_appends ops (concurrent_queue.create capacity)
      (concurrent_queue.valid_create capacity)
      (by simpa [concurrent_queue.create, concurrent_queue.capacity] using hfit)
  have hsize0 : q.size_ = (appended ops).length := by
    simpa [concurrent_queue.create] using hsize
  have hitems0 : q.items = appended ops := by
    rw [hitems]
    simp [concurrent_queue.items, concurrent_queue.create]
  obtain ⟨res, q', hres, hfst, hsnd, hz⟩ :=
    concurrent_queue.items_apply_pops pops q hv (by rw [hpops, hsize0])
  refine ⟨q, hq, hsize0, res, q', hres, ?_, ?_, ?_⟩
  · rw [hfst, hitems0]
  · rw [hsnd, hsize0]
  · simp [concurrent_queue.empty, hz]

/-- The sequence of the unit test `push_emplace_pop_one_thread` on a queue of six slots. -/
theorem queue_fifo_one_thread_witness :
    (concurrent_queue.create 6 : concurrent_queue Nat).empty = true ∧
    (concurrent_queue.create 6 : concurrent_queue Nat).size = 0 ∧
    (concurrent_queue.create 6 : concurrent_queue Nat).wait_allowed = true ∧
    ∃ q, (concurrent_queue.create 6).apply_appends
        [.push 24, .push 100, .emplace 1024, .push_range [1, 2, 3]] = some q ∧
      q.size = (appended [append_op.push 24, .push 100, .emplace 1024,
        .push_range [1, 2, 3]]).length ∧
      ∃ res q', q.apply_pops [.try_pop, .try_pop, .wait_pop, .try_pop, .try_pop, .try_pop]
          = some (res, q') ∧
        res.map Prod.fst = (appended [append_op.push 24, .push 100, .emplace 1024,
          .push_range [1, 2, 3]]).map some ∧
        res.map Prod.snd = (List.range (appended [append_op.push 24, .push 100,
          .emplace 1024, .push_range [1, 2, 3]]).length).reverse ∧
        q'.empty = true :=
  queue_fifo_one_thread 6 [.push 24, .push 100, .emplace 1024, .push_range [1, 2, 3]]
    [.try_pop, .try_pop, .wait_pop, .try_pop, .try_pop, .try_pop] (by decide) (by decide)

/-- C10: in the loop of `main_thread_func`, when a fiber yields without a pending wait counter:
if the kernel wait counter is set and reads zero (state `s`), then whatever the wait list holds
the next runnable fiber is the kernel fiber, the kernel wait counter is cleared, the yielding
fiber is pushed back into the pool and the wait list is untouched; if the kernel wait counter is
unset or reads non-zero and no stored entry of the wait list is ready (state `t`), the iteration
leaves the runnable fiber, the pool and the wait list as they were. -/
theorem main_thread_idle_yield (mem : Nat → Nat) (pool_pick : Nat) (s t : main_thread_state)
    (hkernel : s.kernel_fiber ≠ 0)
    (hset : s.p_main_wait_counter ≠ 0) (hzero : mem s.p_main_wait_counter = 0)
    (hwf : wl_wf t.wait_list)
    (hnot : t.p_main_wait_counter = 0 ∨ mem t.p_main_wait_counter ≠ 0)
    (hnone : ∀ e ∈ t.wait_list.stored, mem e.p_wait_counter ≠ 0) :
    main_thread_iter mem pool_pick 0 s
        = some { s with p_fiber_to_exec := s.kernel_fiber,
                        p_main_wait_counter := 0,
                        pool := s.pool.push_back s.p_fiber_to_exec,
                        calls := s.calls ++ [.pool_push_back s.p_fiber_to_exec] } ∧
    main_thread_iter mem pool_pick 0 t = some t := by
  constructor
  · simp [main_thread_iter, hset, hzero, hkernel]
  · have hbranch : ¬(t.p_main_wait_counter ≠ 0 ∧ mem t.p_main_wait_counter = 0) := by
      rintro ⟨h1, h2⟩
      rcases hnot with h | h
      · exact h1 h
      · exact h h2
    rcases try_pop_spec mem t.wait_list 0 hwf with ⟨h1, _⟩ | ⟨e, _, hmem, hz, _⟩
    · unfold main_thread_iter
      simp only [ne_eq, not_true_eq_false, if_false, hbranch, h1, Option.map_some']
    · exact absurd hz (hnone e hmem)

/-- The kernel fiber 1 waits on the counter at 100, which now reads zero, while worker fiber 12
yields and fiber 11 sits ready in the wait list: the kernel fiber is next. In the second state
the kernel counter reads 1 and the parked fiber is not ready: nothing moves. -/
theorem main_thread_idle_yield_witness :
    main_thread_iter (fun a => if a = 100 then 0 else if a = 200 then 0 else 1) 0 0
        ⟨1, 100, 12, ⟨[]⟩, ⟨[⟨11, 200⟩, ⟨0, 0⟩], 1⟩, []⟩
      = some ⟨1, 0, 1, ⟨[12]⟩, ⟨[⟨11, 200⟩, ⟨0, 0⟩], 1⟩, [.pool_push_back 12]⟩ ∧
    main_thread_iter (fun a => if a = 100 then 0 else if a = 200 then 0 else 1) 0 0
        ⟨1, 300, 12, ⟨[]⟩, ⟨[⟨11, 400⟩, ⟨0, 0⟩], 1⟩, []⟩
      = some ⟨1, 300, 12, ⟨[]⟩, ⟨[⟨11, 400⟩, ⟨0, 0⟩], 1⟩, []⟩ :=
  main_thread_idle_yield (fun a => if a = 100 then 0 else if a = 200 then 0 else 1) 0
    ⟨1, 100, 12, ⟨[]⟩, ⟨[⟨11, 200⟩, ⟨0, 0⟩], 1⟩, []⟩
    ⟨1, 300, 12, ⟨[]⟩, ⟨[⟨11, 400⟩, ⟨0, 0⟩], 1⟩, []⟩
    (by decide) (by decide) (by decide) (by simp [wl_wf, fiber_wait_list.stored])
    (by decide) (by simp [fiber_wait_list.stored])

end ts
